/-
Verification of the RED-PACET-SHARE code-distribution bot
(src/bot.js, first document, together with the table definitions in
src/unnamed/part_002).

This file gives a shallow embedding of the persistent state of the bot
(users, codes, code_view_assignments, user_penalties, groups,
admin_settings) and of every operation of the daily distribution and
penalty engine that reads or writes those tables:

  * runDailyDistribution            (bot.js lines 1575-1651)
  * the per-minute scheduler tick   (bot.js lines 1901-1920)
  * handleUnusedCodes               (bot.js lines 1653-1714)
  * reactivateSuspendedCodes        (bot.js lines 1759-1780)
  * the midnight warning/deletion cron job  (bot.js lines 1839-1898)
  * the monthly cycle reset         (bot.js lines 1931-1939, also the
    admin delete-cycle action, lines 1201-1203)
  * the done_ callback (mark an assignment used, bot.js lines 1003-1013)
  * user registration               (bot.js lines 143-171, 294)
  * code upload                     (bot.js lines 964-992)
  * the admin ban action            (bot.js lines 516-528)
  * admin settings commands (set_limit, set_group_limit, set_time,
    scheduler and payment-mode toggles; bot.js lines 388-404, 657-699,
    727-746, 1541)

Modelling conventions:
  * SQL rows are list elements; SERIAL primary keys are modelled by
    fresh-id counters in the state.  Calendar dates and times of day are
    naturals (a date is a day index, a send time is a minute of day);
    the SQL comparison penalty_date <= today - 2 over integer dates is
    written penaltyDate + 2 <= today, which agrees with integer
    arithmetic for every value of today.
  * Math.random-driven candidate shuffling is a parameter
    (sh : List Nat -> List Nat); theorems assume only that it permutes
    its input.  The statistical behaviour of the concrete shuffle
    expression sort with comparator 0.5 - Math.random here
    is modelled separately (see the C7 section below).
  * Columns that no modelled operation reads (code_text, reminder_sent,
    presented_at, last_interaction_date, telegram_id, phone, verified,
    names) are omitted; telegram ids are identified with user ids (the
    telegram_id -> id lookup is injective).
  * The schema of user_penalties is not under src/; following the spec
    (a per-member counter plus a flag marking whether the codes have
    been suspended) a freshly inserted row carries codes_deleted =
    false, matching the insert at bot.js line 1706 which leaves the
    column to its default.
  * Foreign-key enforcement is not modelled: a DELETE removes exactly
    the rows its WHERE clause selects.  (Under the constraints declared
    in src/unnamed/part_002 lines 38-46 the midnight DELETE FROM codes
    would instead abort when another viewer's assignment still
    references a deleted code; either semantics contradicts claim C4
    the same way, see below.)
  * The field pairLog is ghost instrumentation: an append-only history
    of the (owner, viewer) pairs of every inserted assignment row.  No
    operation reads it and no operation ever clears it; it exists only
    to state lifetime properties (claim C1).
-/
import Mathlib

set_option maxRecDepth 4000

namespace RedPacket

/-- Status of a code: bot.js only ever stores the strings active and
suspended in codes.status. -/
inductive CStatus where
  | active
  | suspended
deriving DecidableEq, Repr

/-- A row of the codes table (the columns the engine reads). -/
structure Code where
  id : Nat
  owner : Nat
  dayNumber : Nat
  status : CStatus
  viewsPerDay : Nat
deriving DecidableEq, Repr

/-- A row of the code_view_assignments table. -/
structure Assign where
  id : Nat
  codeId : Nat
  viewer : Nat
  date : Nat
  used : Bool
deriving DecidableEq, Repr

/-- A row of the user_penalties table. -/
structure Penalty where
  user : Nat
  missedDays : Nat
  penaltyDate : Nat
  codesDeleted : Bool
deriving DecidableEq, Repr

/-- A row of the groups table (the columns the engine reads). -/
structure Group where
  id : Nat
  maxUsers : Nat
  dailyCodesLimit : Nat
  sendTime : Nat
  schedulerActive : Bool
  paymentModeActive : Bool
deriving DecidableEq, Repr

/-- A row of the users table (the columns the engine reads). -/
structure User where
  id : Nat
  groupId : Nat
deriving DecidableEq, Repr

/-- The admin_settings row (defaults used when creating a group). -/
structure AdminSettings where
  dailyCodesLimit : Nat
  groupSize : Nat
  sendTime : Nat
deriving DecidableEq, Repr

/-- The whole persistent state, plus fresh-id counters and the ghost
insertion log pairLog (see the header comment). -/
structure State where
  users : List User
  codes : List Code
  assignments : List Assign
  penalties : List Penalty
  groups : List Group
  admin : AdminSettings
  nextUserId : Nat
  nextCodeId : Nat
  nextAssignId : Nat
  nextGroupId : Nat
  pairLog : List (Nat × Nat)
deriving DecidableEq, Repr

/-- The SELECT id FROM users WHERE group_id clause of
runDailyDistribution (bot.js line 1608). -/
def usersInGroup (s : State) (g : Nat) : List Nat :=
  (s.users.filter (fun u => u.groupId == g)).map (fun u => u.id)

/-- One joined contribution to the MAX(day_number) query of bot.js
lines 1585-1591: the day number of the code with the given id, provided
that code exists and its owner is a user of group g. -/
def dayOfCode (codes : List Code) (users : List User) (g cid : Nat) : Option Nat :=
  match codes.find? (fun c => c.id == cid) with
  | some c =>
      if users.any (fun u => u.id == c.owner && u.groupId == g) then some c.dayNumber
      else none
  | none => none

/-- COALESCE(MAX(day_number), 0) over assignments joined with codes and
users of group g (bot.js lines 1585-1591). -/
def maxAssignedDay (s : State) (g : Nat) : Nat :=
  ((s.assignments.map (fun a => a.codeId)).filterMap (dayOfCode s.codes s.users g)).foldr max 0

/-- The nextDay computed by runDailyDistribution (bot.js line 1593). -/
def nextDayOf (s : State) (g : Nat) : Nat :=
  maxAssignedDay s g + 1

/-- The active codes of group g scheduled for day d, in creation order
(bot.js lines 1595-1601). -/
def codesForDay (s : State) (g d : Nat) : List Code :=
  s.codes.filter (fun c =>
    c.status == CStatus.active && s.users.any (fun u => u.id == c.owner && u.groupId == g)
      && c.dayNumber == d)

/-- The DISTINCT assigned_to_user_id of every assignment row whose code
belongs to the given owner (bot.js lines 1617-1624).  Distinctness is
irrelevant here because the list is only used for membership tests. -/
def seenViewers (s : State) (owner : Nat) : List Nat :=
  (s.assignments.filter (fun a =>
    (s.codes.find? (fun c => c.id == a.codeId)).any (fun c => c.owner == owner))).map
    (fun a => a.viewer)

/-- The INSERT INTO code_view_assignments of bot.js lines 1634-1638,
with a fresh id, used=false, assigned_date = today.  The ghost pairLog
records the (owner, viewer) pair being created. -/
def insertAssign (today : Nat) (c : Code) (st : State) (v : Nat) : State :=
  { st with
    assignments := st.assignments ++ [⟨st.nextAssignId, c.id, v, today, false⟩],
    nextAssignId := st.nextAssignId + 1,
    pairLog := st.pairLog ++ [(c.owner, v)] }

/-- The candidate pool of one code after both filters of bot.js lines
1615-1625: every user of the group except the owner, minus every user
who already has an assignment row for a code of this owner. -/
def remainingPool (st : State) (allIds : List Nat) (c : Code) : List Nat :=
  (allIds.filter (fun u => !(u == c.owner))).filter
    (fun u => !((seenViewers st c.owner).contains u))

/-- Distribution of a single code, bot.js lines 1612-1644: viewersNeeded
uses the JS fallback views_per_day or else the group daily limit (a 0
stored value is falsy), the pool is filtered, shuffled by sh, and the
first viewersNeeded candidates each get one inserted assignment row. -/
def distributeCode (sh : List Nat → List Nat) (today : Nat) (allIds : List Nat)
    (lim : Nat) (st : State) (c : Code) : State :=
  let needed := if c.viewsPerDay ≠ 0 then c.viewsPerDay else lim
  let cands := sh (remainingPool st allIds c)
  (cands.take needed).foldl (insertAssign today c) st

/-- Distribution for one group, bot.js lines 1582-1645: compute nextDay,
fetch that day's active codes, fetch the group's member ids once, then
process each code in order (each code's anti-repeat query sees the rows
inserted for the previous codes). -/
def distributeGroup (sh : List Nat → List Nat) (today : Nat) (s : State) (g : Group) : State :=
  let d := nextDayOf s g.id
  let cs := codesForDay s g.id d
  let allIds := usersInGroup s g.id
  cs.foldl (distributeCode sh today allIds g.dailyCodesLimit) s

/-- The groups eligible for distribution: scheduler active and not in
payment mode (bot.js line 1578). -/
def eligibleGroups (s : State) : List Group :=
  s.groups.filter (fun g => g.schedulerActive && !g.paymentModeActive)

/-- runDailyDistribution, bot.js lines 1575-1651: every eligible group
is processed, sequentially, whatever triggered the run. -/
def runDailyDistribution (sh : List Nat → List Nat) (today : Nat) (s : State) : State :=
  (eligibleGroups s).foldl (distributeGroup sh today) s

/-- The per-minute scheduler, bot.js lines 1901-1920: if the current
time of day equals the send_time of some scheduler-active group, one
global runDailyDistribution is executed (and the loop breaks). -/
def schedulerTick (sh : List Nat → List Nat) (today hm : Nat) (s : State) : State :=
  if (s.groups.filter (fun g => g.schedulerActive)).any (fun g => g.sendTime == hm) then
    runDailyDistribution sh today s
  else s

/-- The done_ callback, bot.js lines 1003-1013: set used=true on the
assignment with the given id, then, if the acting member is registered,
delete every user_penalties row of that member. -/
def markUsed (aid actor : Nat) (s : State) : State :=
  let s1 := { s with assignments := s.assignments.map (fun (a : Assign) =>
      if a.id == aid then { a with used := true } else a) }
  if s1.users.any (fun u => u.id == actor) then
    { s1 with penalties := s1.penalties.filter (fun p => !(p.user == actor)) }
  else s1

/-- The four DELETE statements of the midnight deletion (bot.js lines
1871-1880) and of the admin ban action (bot.js lines 516-528): the
member's codes, the assignments held by the member as a viewer, the
member's penalty rows, and the member row itself.  Assignments whose
code belongs to the member but whose viewer is someone else are not
touched by any of the four statements. -/
def purgeUser (uid : Nat) (s : State) : State :=
  { s with
    codes := s.codes.filter (fun c => !(c.owner == uid)),
    assignments := s.assignments.filter (fun a => !(a.viewer == uid)),
    penalties := s.penalties.filter (fun p => !(p.user == uid)),
    users := s.users.filter (fun u => !(u.id == uid)) }

/-- The missed_days of a member as read through the single-row lookup
used by bot.js (ORDER BY created_at DESC LIMIT 1 at line 1687, LEFT
JOIN at line 1850, with missed_days or 0 when no row exists).  The
engine keeps at most one penalty row per member, so the first matching
row is the row. -/
def storedMissed (s : State) (uid : Nat) : Nat :=
  ((s.penalties.find? (fun p => p.user == uid)).map (fun p => p.missedDays)).getD 0

/-- The member ids produced by the midnight missed-users query (bot.js
lines 1846-1853): users that hold at least one unused assignment dated
yesterday. -/
def missedUsersList (s : State) (yesterday : Nat) : List Nat :=
  (s.users.filter (fun u => s.assignments.any (fun a =>
    a.viewer == u.id && a.date == yesterday && !a.used))).map (fun u => u.id)

/-- The deletion loop of the midnight cron job (bot.js lines 1855-1890):
for every user with an unused assignment dated yesterday, if the stored
missed_days plus one reaches 3 the user is purged.  The user list and
each stored counter are read once, before any deletion. -/
def midnightPurge (today : Nat) (s : State) : State :=
  let ms := (missedUsersList s (today - 1)).map (fun u => (u, storedMissed s u))
  ms.foldl (fun st (pr : Nat × Nat) => if 3 ≤ pr.2 + 1 then purgeUser pr.1 st else st) s

/-- The carry-forward of bot.js lines 1670-1684: if the member has no
assignment dated today, every unused assignment of the member dated
yesterday is re-dated to today. -/
def moveIfFree (today yesterday uid : Nat) (st : State) : State :=
  if st.assignments.any (fun a => a.viewer == uid && a.date == today) then st
  else
    { st with assignments := st.assignments.map (fun a =>
        if a.viewer == uid && a.date == yesterday && !a.used then { a with date := today }
        else a) }

/-- UPDATE codes SET status=suspended WHERE owner_id=uid AND
status=active (bot.js lines 1696-1700). -/
def suspendCodesOf (uid : Nat) (st : State) : State :=
  { st with codes := st.codes.map (fun c =>
      if c.owner == uid && c.status == CStatus.active then { c with status := CStatus.suspended }
      else c) }

/-- The penalty escalation of bot.js lines 1686-1709: if the member has
a penalty row, missed_days is incremented and penalty_date set to
today, and when the new value reaches 2 the member's active codes are
suspended and codes_deleted is set; otherwise a fresh row with
missed_days = 1 is inserted. -/
def bumpPenalty (today uid : Nat) (st : State) : State :=
  match st.penalties.find? (fun p => p.user == uid) with
  | some p =>
      let m := p.missedDays + 1
      let st1 := { st with penalties := st.penalties.map (fun q =>
          if q.user == uid then { q with missedDays := m, penaltyDate := today } else q) }
      if 2 ≤ m then
        let st2 := suspendCodesOf uid st1
        { st2 with penalties := st2.penalties.map (fun q =>
            if q.user == uid then { q with codesDeleted := true } else q) }
      else st1
  | none => { st with penalties := st.penalties ++ [⟨uid, 1, today, false⟩] }

/-- handleUnusedCodes, bot.js lines 1653-1714: for every distinct member
holding an unused assignment dated yesterday, carry the assignments
forward, then escalate the penalty counter. -/
def handleUnusedCodes (today : Nat) (s : State) : State :=
  let ys := today - 1
  let us := ((s.assignments.filter (fun a => a.date == ys && !a.used)).map
    (fun a => a.viewer)).dedup
  us.foldl (fun st uid => bumpPenalty today uid (moveIfFree today ys uid st)) s

/-- reactivateSuspendedCodes, bot.js lines 1759-1780: for every penalty
row with codes_deleted=true and penalty_date at least two days old, the
member's suspended codes are set back to active and the member's
penalty rows are deleted. -/
def reactivateSuspendedCodes (today : Nat) (s : State) : State :=
  let sel := (s.penalties.filter (fun p => p.codesDeleted && p.penaltyDate + 2 ≤ today)).map
    (fun p => p.user)
  sel.foldl (fun st uid =>
    { st with
      codes := st.codes.map (fun c =>
        if c.owner == uid && c.status == CStatus.suspended then { c with status := CStatus.active }
        else c),
      penalties := st.penalties.filter (fun p => !(p.user == uid)) }) s

/-- The whole midnight cron job (bot.js lines 1839-1898): the
warning/deletion loop, then handleUnusedCodes, then
reactivateSuspendedCodes, in that order. -/
def midnightJob (today : Nat) (s : State) : State :=
  reactivateSuspendedCodes today (handleUnusedCodes today (midnightPurge today s))

/-- The monthly cycle reset (bot.js lines 1931-1939) and the admin
delete-cycle action (lines 1201-1203): all assignments, codes and
penalty rows are deleted; users and groups are kept. -/
def cycleReset (s : State) : State :=
  { s with assignments := [], codes := [], penalties := [] }

/-- The group-choice query of registration (bot.js lines 154-157): the
oldest group whose member count is below max_users. -/
def firstOpenGroup (s : State) : Option Group :=
  s.groups.find? (fun g => (usersInGroup s g.id).length < g.maxUsers)

/-- A group freshly created by registration (bot.js lines 160-165):
settings copied from admin_settings, scheduler off, not in payment
mode. -/
def newGroup (s : State) : Group :=
  ⟨s.nextGroupId, s.admin.groupSize, s.admin.dailyCodesLimit, s.admin.sendTime, false, false⟩

/-- Registration (bot.js lines 143-171 and 294): the member joins the
first open group, or a fresh group created from the admin defaults.
(max_groups is NULL by default, so no group-count cap is modelled.) -/
def registerUser (s : State) : State :=
  match firstOpenGroup s with
  | some g =>
      { s with users := s.users ++ [⟨s.nextUserId, g.id⟩], nextUserId := s.nextUserId + 1 }
  | none =>
      let g := newGroup s
      { s with
        groups := s.groups ++ [g], nextGroupId := s.nextGroupId + 1,
        users := s.users ++ [⟨s.nextUserId, g.id⟩], nextUserId := s.nextUserId + 1 }

/-- getGroupSettings daily_codes_limit (bot.js lines 113-124), default
50 when the group row is missing. -/
def groupLimitFor (s : State) (gid : Nat) : Nat :=
  ((s.groups.find? (fun g => g.id == gid)).map (fun g => g.dailyCodesLimit)).getD 50

/-- Code upload (bot.js lines 964-992): n codes are inserted for a
registered owner, day_number 1..n in upload order, status active,
views_per_day copied from the owner's group daily limit at upload
time. -/
def uploadCodes (owner n : Nat) (s : State) : State :=
  match s.users.find? (fun u => u.id == owner) with
  | none => s
  | some u =>
      let vp := groupLimitFor s u.groupId
      (List.range n).foldl (fun st i =>
        { st with
          codes := st.codes ++ [⟨st.nextCodeId, owner, i + 1, CStatus.active, vp⟩],
          nextCodeId := st.nextCodeId + 1 }) s

/-- UPDATE groups SET daily_codes_limit for one group (bot.js lines
657-677 and 727-746; the only validation on the value is isNaN). -/
def setGroupLimit (gid v : Nat) (s : State) : State :=
  { s with groups := s.groups.map (fun g =>
      if g.id == gid then { g with dailyCodesLimit := v } else g) }

/-- The set_limit admin command (bot.js lines 397-404): the admin
default and every group's daily_codes_limit are set to the value. -/
def setLimitAll (v : Nat) (s : State) : State :=
  { s with
    admin := { s.admin with dailyCodesLimit := v },
    groups := s.groups.map (fun g => { g with dailyCodesLimit := v }) }

/-- Per-group scheduler toggle (updateGroupSettings with field
is_scheduler_active, bot.js lines 132-136). -/
def setGroupScheduler (gid : Nat) (b : Bool) (s : State) : State :=
  { s with groups := s.groups.map (fun g =>
      if g.id == gid then { g with schedulerActive := b } else g) }

/-- The global scheduler toggle (bot.js line 1541). -/
def setAllScheduler (b : Bool) (s : State) : State :=
  { s with groups := s.groups.map (fun g => { g with schedulerActive := b }) }

/-- Per-group payment-mode toggle (updateGroupSettings with field
payment_mode_active, bot.js lines 132-136). -/
def setGroupPayment (gid : Nat) (b : Bool) (s : State) : State :=
  { s with groups := s.groups.map (fun g =>
      if g.id == gid then { g with paymentModeActive := b } else g) }

/-- Per-group send-time update (bot.js lines 679-699). -/
def setGroupSendTime (gid t : Nat) (s : State) : State :=
  { s with groups := s.groups.map (fun g =>
      if g.id == gid then { g with sendTime := t } else g) }

/-- The set_time admin command (bot.js lines 388-395). -/
def setSendTimeAll (t : Nat) (s : State) : State :=
  { s with
    admin := { s.admin with sendTime := t },
    groups := s.groups.map (fun g => { g with sendTime := t }) }

/-- One step of the system: any of the modelled operations, with
arbitrary parameters.  Distribution steps may use any shuffle that
permutes its input. -/
inductive Step : State → State → Prop where
  | register (s : State) : Step s (registerUser s)
  | upload (s : State) (owner n : Nat) : Step s (uploadCodes owner n s)
  | distribute (s : State) (sh : List Nat → List Nat) (today : Nat)
      (hsh : ∀ l, (sh l).Perm l) : Step s (runDailyDistribution sh today s)
  | tick (s : State) (sh : List Nat → List Nat) (today hm : Nat)
      (hsh : ∀ l, (sh l).Perm l) : Step s (schedulerTick sh today hm s)
  | midnight (s : State) (today : Nat) (h : 1 ≤ today) : Step s (midnightJob today s)
  | mark (s : State) (aid actor : Nat) : Step s (markUsed aid actor s)
  | ban (s : State) (uid : Nat) : Step s (purgeUser uid s)
  | reset (s : State) : Step s (cycleReset s)
  | glimit (s : State) (gid v : Nat) : Step s (setGroupLimit gid v s)
  | limitAll (s : State) (v : Nat) : Step s (setLimitAll v s)
  | gsched (s : State) (gid : Nat) (b : Bool) : Step s (setGroupScheduler gid b s)
  | schedAll (s : State) (b : Bool) : Step s (setAllScheduler b s)
  | gpay (s : State) (gid : Nat) (b : Bool) : Step s (setGroupPayment gid b s)
  | gtime (s : State) (gid t : Nat) : Step s (setGroupSendTime gid t s)
  | timeAll (s : State) (t : Nat) : Step s (setSendTimeAll t s)

/-- The empty initial state (fresh database, admin defaults of
ensureAdminSettings: daily limit 50, group size 1000, send time
09:00). -/
def initState : State :=
  ⟨[], [], [], [], [], ⟨50, 1000, 540⟩, 1, 1, 1, 1, []⟩

/-- A state the system can actually be in. -/
def Reachable (s : State) : Prop :=
  Relation.ReflTransGen Step initState s

/-- How many assignment rows currently link a code owned by o to the
viewer v. -/
def pairRowCount (s : State) (o v : Nat) : Nat :=
  s.assignments.countP (fun a =>
    a.viewer == v && (s.codes.find? (fun c => c.id == a.codeId)).any (fun c => c.owner == o))

/-- How many assignment rows linking a code owned by o to the viewer v
have ever been inserted, over the whole life of the system (read off
the ghost insertion log). -/
def pairLogCount (s : State) (o v : Nat) : Nat :=
  s.pairLog.countP (fun pr => pr.1 == o && pr.2 == v)

/-- How many assignment rows exist for code cid, any date. -/
def totalRowCount (s : State) (cid : Nat) : Nat :=
  s.assignments.countP (fun a => a.codeId == cid)

/-- How many assignment rows exist for code cid dated d. -/
def dateRowCount (s : State) (cid d : Nat) : Nat :=
  s.assignments.countP (fun a => a.codeId == cid && a.date == d)

/-- The penalty rows of one member. -/
def penaltiesOf (s : State) (u : Nat) : List Penalty :=
  s.penalties.filter (fun p => p.user == u)

/-- The codes owned by one member. -/
def codesOf (s : State) (u : Nat) : List Code :=
  s.codes.filter (fun c => c.owner == u)

/-- The assignment rows held by one member as the viewer. -/
def viewerAssignsOf (s : State) (u : Nat) : List Assign :=
  s.assignments.filter (fun a => a.viewer == u)

/-- The ids of the registered members. -/
def userIds (s : State) : List Nat :=
  s.users.map (fun u => u.id)

/-
Model of the candidate shuffle expression of bot.js line 1627,
candidates.sort with comparator 0.5 - Math.random().  The comparator
ignores its arguments and returns a fresh random sign on every call, so
the outcome is a deterministic function of the input list and of the
sequence of comparator signs.  Each sign is an independent fair coin
(Math.random() < 0.5 and Math.random() > 0.5 each have probability 1/2
up to the 2^-53 chance of equality).  Array.prototype.sort with an
inconsistent comparator is implementation-defined; V8 sorts short
arrays by insertion sort, which is what insertR/sortRand implement,
consuming one coin per comparator call (true = the inserted element is
placed before the compared element). -/
def insertR (x : Nat) : List Nat → List Bool → (List Nat × List Bool)
  | [], ks => ([x], ks)
  | y :: ys, [] => (x :: y :: ys, [])
  | y :: ys, b :: ks =>
      if b then (x :: y :: ys, ks)
      else
        let r := insertR x ys ks
        (y :: r.1, r.2)

/-- Insertion sort of a list under a stream of comparator coins; returns
the sorted list and the unconsumed coins. -/
def sortRandAux : List Nat → List Bool → (List Nat × List Bool)
  | [], ks => ([], ks)
  | x :: xs, ks =>
      let r := sortRandAux xs ks
      insertR x r.1 r.2

/-- The sort-by-random-comparator shuffle of bot.js line 1627 under a
given sequence of comparator outcomes. -/
def sortRand (l : List Nat) (ks : List Bool) : List Nat :=
  (sortRandAux l ks).1

/-- All coin sequences of length n; each is equally likely, with
probability 2^-n. -/
def coinStreams : Nat → List (List Bool)
  | 0 => [[]]
  | n + 1 =>
      (coinStreams n).map (fun ks => true :: ks) ++ (coinStreams n).map (fun ks => false :: ks)

/-- In how many of the 2^n equally likely coin sequences of length n the
shuffle of l produces exactly the order p.  The probability of p is
this count divided by 2^n. -/
def countOutcome (l : List Nat) (n : Nat) (p : List Nat) : Nat :=
  ((coinStreams n).filter (fun ks => sortRand l ks == p)).length

/-- The identity shuffle, used to instantiate distribution steps in
concrete traces (it permutes its input, as Step.distribute requires). -/
def idShuffle : List Nat → List Nat := fun l => l

/-
Concrete demonstration traces.  Trace A: two members register (which
creates group 1 from the admin defaults), the admin switches the
scheduler on, member 1 uploads one code, distribution runs, the monthly
cycle reset fires, member 1 uploads again and distribution runs again.
-/
def demoA1 : State := registerUser initState
def demoA2 : State := registerUser demoA1
def demoA3 : State := setAllScheduler true demoA2
def demoA4 : State := uploadCodes 1 1 demoA3
def demoA5 : State := runDailyDistribution idShuffle 10 demoA4
def demoA6 : State := cycleReset demoA5
def demoA7 : State := uploadCodes 1 1 demoA6
def demoA8 : State := runDailyDistribution idShuffle 40 demoA7

/-
Trace B: as trace A, but the admin sets the daily limit to 0 before
member 1 uploads (so the stored views_per_day is 0) and back to 1
afterwards; then distribution runs.
-/
def demoB4 : State := setLimitAll 0 demoA3
def demoB5 : State := uploadCodes 1 1 demoB4
def demoB6 : State := setLimitAll 1 demoB5
def demoB7 : State := runDailyDistribution idShuffle 10 demoB6

/-
A concrete state for the terminal-purge scenario (claims C3/C4 context):
members 1 and 2 in group 1; member 1 owns code 1, which was assigned to
member 2 on day 5 (row 1, still unused); member 2 owns code 2, which
was assigned to member 1 yesterday (row 2, unused); member 1 already
carries a penalty row with missed_days = 2.  Running the midnight job
with today = 10 purges member 1.
-/
def purgeDemo : State :=
  ⟨[⟨1, 1⟩, ⟨2, 1⟩],
   [⟨1, 1, 1, CStatus.active, 50⟩, ⟨2, 2, 1, CStatus.active, 50⟩],
   [⟨1, 1, 2, 5, false⟩, ⟨2, 2, 1, 9, false⟩],
   [⟨1, 2, 9, true⟩],
   [⟨1, 1000, 50, 540, true, false⟩], ⟨50, 1000, 540⟩, 3, 3, 3, 2, [(1, 2), (2, 1)]⟩

/-
A concrete two-group state for the scheduler claim (C8): group 1 fires
at minute 480, group 2 at minute 540, both scheduler-active and not in
payment mode; both members and the only code belong to group 2.
-/
def tickDemo : State :=
  ⟨[⟨1, 2⟩, ⟨2, 2⟩],
   [⟨1, 1, 1, CStatus.active, 50⟩],
   [], [],
   [⟨1, 1000, 50, 480, true, false⟩, ⟨2, 1000, 50, 540, true, false⟩],
   ⟨50, 1000, 540⟩, 3, 2, 1, 3, []⟩

/-
A concrete state for the penalty-escalation scenario: member 1 of group
1 owns the active code 1, holds the unused assignment 1 for member 2's
code 2 dated 9, and carries a penalty row with missed_days = 1 from day
5.  Running the midnight job with today = 10 raises the streak to 2 and
suspends code 1.
-/
def penDemo : State :=
  ⟨[⟨1, 1⟩, ⟨2, 1⟩],
   [⟨1, 1, 1, CStatus.active, 50⟩, ⟨2, 2, 1, CStatus.active, 50⟩],
   [⟨1, 2, 1, 9, false⟩],
   [⟨1, 1, 5, false⟩],
   [⟨1, 1000, 50, 540, true, false⟩], ⟨50, 1000, 540⟩, 3, 3, 2, 2, [(2, 1)]⟩

/-
A concrete state for the reactivation scenario: member 1 owns the
suspended code 1 and carries a penalty row with codes_deleted = true
dated day 5; running the reactivation pass with today = 10 sets the
code back to active.  Member 1 also holds the unused assignment 1.
-/
def reactDemo : State :=
  ⟨[⟨1, 1⟩, ⟨2, 1⟩],
   [⟨1, 1, 1, CStatus.suspended, 50⟩, ⟨2, 2, 1, CStatus.active, 50⟩],
   [⟨1, 2, 1, 9, false⟩],
   [⟨1, 2, 5, true⟩],
   [⟨1, 1000, 50, 540, true, false⟩], ⟨50, 1000, 540⟩, 3, 3, 2, 2, [(2, 1)]⟩

/-- A membership test used to state claim C8: the assignment row
belongs to group gid, i.e. the row's code exists and its owner is a
member of that group. -/
def assignRowInGroup (s : State) (a : Assign) (gid : Nat) : Bool :=
  s.codes.any (fun c =>
    c.id == a.codeId && s.users.any (fun u => u.id == c.owner && u.groupId == gid))

/-- The steps that delete no row: every modelled operation except the
cycle reset, the admin ban, and a midnight run in which some member
reaches the deletion threshold.  Claim C6's amended statement is
monotonicity of nextDay along these steps. -/
inductive NdStep : State → State → Prop where
  | register (s : State) : NdStep s (registerUser s)
  | upload (s : State) (owner n : Nat) : NdStep s (uploadCodes owner n s)
  | distribute (s : State) (sh : List Nat → List Nat) (today : Nat)
      (hsh : ∀ l, (sh l).Perm l) : NdStep s (runDailyDistribution sh today s)
  | tick (s : State) (sh : List Nat → List Nat) (today hm : Nat)
      (hsh : ∀ l, (sh l).Perm l) : NdStep s (schedulerTick sh today hm s)
  | midnightSafe (s : State) (today : Nat) (h : 1 ≤ today)
      (hsafe : ∀ u ∈ missedUsersList s (today - 1), storedMissed s u + 1 < 3) :
      NdStep s (midnightJob today s)
  | mark (s : State) (aid actor : Nat) : NdStep s (markUsed aid actor s)
  | glimit (s : State) (gid v : Nat) : NdStep s (setGroupLimit gid v s)
  | limitAll (s : State) (v : Nat) : NdStep s (setLimitAll v s)
  | gsched (s : State) (gid : Nat) (b : Bool) : NdStep s (setGroupScheduler gid b s)
  | schedAll (s : State) (b : Bool) : NdStep s (setAllScheduler b s)
  | gpay (s : State) (gid : Nat) (b : Bool) : NdStep s (setGroupPayment gid b s)
  | gtime (s : State) (gid t : Nat) : NdStep s (setGroupSendTime gid t s)
  | timeAll (s : State) (t : Nat) : NdStep s (setSendTimeAll t s)

/-- The inductive invariant of the system: primary keys are unique and
below the fresh-id counters, assignment rows reference only allocated
code ids, at most one penalty row per member, at most one live
assignment row per (owner, viewer) pair, and no code with a nonzero
views_per_day ever holds more assignment rows than that value. -/
structure Inv (s : State) : Prop where
  unodup : (s.users.map (fun u => u.id)).Nodup
  ubnd : ∀ u ∈ s.users, u.id < s.nextUserId
  cnodup : (s.codes.map (fun c => c.id)).Nodup
  cbnd : ∀ c ∈ s.codes, c.id < s.nextCodeId
  abnd : ∀ a ∈ s.assignments, a.codeId < s.nextCodeId
  pnodup : (s.penalties.map (fun p => p.user)).Nodup
  pair : ∀ o v, pairRowCount s o v ≤ 1
  cap : ∀ c ∈ s.codes, c.viewsPerDay ≠ 0 → totalRowCount s c.id ≤ c.viewsPerDay

/-- A member fully expelled from the system: no user row, no owned
codes, no viewer-side assignment rows, no penalty rows.  (Assignment
rows whose code belonged to the member but whose viewer is someone else
are not covered: the purge leaves them behind, see claim C4.) -/
def Purged (v : Nat) (s : State) : Prop :=
  v ∉ userIds s ∧ codesOf s v = [] ∧ viewerAssignsOf s v = [] ∧ penaltiesOf s v = []

/-- The part of the state a distribution run never changes: everything
except assignments, the assignment counter and the ghost log. -/
def DFrame (base st : State) : Prop :=
  st.users = base.users ∧ st.codes = base.codes ∧ st.groups = base.groups ∧
    st.penalties = base.penalties ∧ st.nextCodeId = base.nextCodeId ∧
    st.nextUserId = base.nextUserId

/-
From here on the file contains only theorems: generic list lemmas,
facts about each operation, preservation of the invariant, and the
claim theorems.
-/

theorem le_foldr_max {l : List Nat} {a : Nat} (h : a ∈ l) : a ≤ l.foldr max 0 := by
  induction l with
  | nil => cases h
  | cons x xs ih =>
      rcases List.mem_cons.mp h with rfl | hx
      · exact Nat.le_max_left _ _
      · exact le_trans (ih hx) (Nat.le_max_right _ _)

theorem foldr_max_append (l l' : List Nat) :
    (l ++ l').foldr max 0 = max (l.foldr max 0) (l'.foldr max 0) := by
  induction l with
  | nil => simp
  | cons x xs ih => simp [ih, Nat.max_assoc]

theorem foldr_max_filterMap_mono {α : Type} {f g : α → Option Nat}
    (h : ∀ x d, f x = some d → g x = some d) (l : List α) :
    (l.filterMap f).foldr max 0 ≤ (l.filterMap g).foldr max 0 := by
  induction l with
  | nil => simp
  | cons x xs ih =>
      rcases hf : f x with _ | d
      · rcases hg : g x with _ | e
        · simpa [List.filterMap_cons, hf, hg] using ih
        · simp only [List.filterMap_cons, hf, hg]
          exact le_trans ih (Nat.le_max_right _ _)
      · have hg := h x d hf
        simp only [List.filterMap_cons, hf, hg]
        exact max_le_max (le_refl d) ih

theorem find?_key_eq {α : Type} (key : α → Nat) {l : List α} {c : α}
    (hnd : (l.map key).Nodup) (hc : c ∈ l) :
    l.find? (fun x => key x == key c) = some c := by
  induction l with
  | nil => cases hc
  | cons x xs ih =>
      rcases List.mem_cons.mp hc with rfl | hx
      · simp [List.find?]
      · have hne : key x ≠ key c := by
          intro he
          have : key c ∈ xs.map key := List.mem_map_of_mem key hx
          rw [← he] at this
          exact (List.nodup_cons.mp (by simpa using hnd)).1 this
        have : (key x == key c) = false := by simpa using hne
        simp only [List.find?, this]
        exact ih (by simpa using (List.nodup_cons.mp (by simpa using hnd)).2) hx

theorem find?_filter_of_imp {α : Type} {p q : α → Bool}
    (h : ∀ x, p x = true → q x = true) (l : List α) :
    (l.filter q).find? p = l.find? p := by
  induction l with
  | nil => rfl
  | cons x xs ih =>
      rcases hq : q x with _ | _
      · have hp : p x = false := by
          rcases hp : p x with _ | _
          · rfl
          · exact absurd (h x hp) (by simp [hq])
        simp [List.filter_cons, hq, List.find?, hp, ih]
      · rcases hp : p x with _ | _
        · simp [List.filter_cons, hq, List.find?, hp, ih]
        · simp [List.filter_cons, hq, List.find?, hp]

theorem mem_map_self {α : Type} {l : List α} {f : α → α} {x : α}
    (hx : x ∈ l) (hf : f x = x) : x ∈ l.map f :=
  hf ▸ List.mem_map_of_mem f hx

theorem idShuffle_perm : ∀ l : List Nat, (idShuffle l).Perm l :=
  fun l => List.Perm.refl l

theorem reach_demoA5 : Reachable demoA5 :=
  Relation.ReflTransGen.tail
    (Relation.ReflTransGen.tail
      (Relation.ReflTransGen.tail
        (Relation.ReflTransGen.tail Relation.ReflTransGen.refl (Step.register initState))
        (Step.register demoA1))
      (Step.schedAll demoA2 true))
    (Step.upload demoA3 1 1) |>.tail (Step.distribute demoA4 idShuffle 10 idShuffle_perm)

theorem reach_demoA8 : Reachable demoA8 :=
  reach_demoA5 |>.tail (Step.reset demoA5) |>.tail (Step.upload demoA6 1 1)
    |>.tail (Step.distribute demoA7 idShuffle 40 idShuffle_perm)

theorem reach_demoB7 : Reachable demoB7 :=
  Relation.ReflTransGen.tail
    (Relation.ReflTransGen.tail
      (Relation.ReflTransGen.tail
        (Relation.ReflTransGen.tail
          (Relation.ReflTransGen.tail
            (Relation.ReflTransGen.tail Relation.ReflTransGen.refl (Step.register initState))
            (Step.register demoA1))
          (Step.schedAll demoA2 true))
        (Step.limitAll demoA3 0))
      (Step.upload demoB4 1 1))
    (Step.limitAll demoB5 1) |>.tail (Step.distribute demoB6 idShuffle 10 idShuffle_perm)

theorem dateRowCount_le_totalRowCount (s : State) (cid d : Nat) :
    dateRowCount s cid d ≤ totalRowCount s cid := by
  refine List.countP_mono_left (fun a _ h => ?_)
  exact ((Bool.and_eq_true _ _).mp h).1

theorem insertAssign_users (today : Nat) (c : Code) (st : State) (v : Nat) :
    (insertAssign today c st v).users = st.users := rfl

theorem insertAssign_codes (today : Nat) (c : Code) (st : State) (v : Nat) :
    (insertAssign today c st v).codes = st.codes := rfl

theorem insertLoop_frame (today : Nat) (c : Code) :
    ∀ (vs : List Nat) (st : State),
      (vs.foldl (insertAssign today c) st).users = st.users ∧
      (vs.foldl (insertAssign today c) st).codes = st.codes ∧
      (vs.foldl (insertAssign today c) st).groups = st.groups ∧
      (vs.foldl (insertAssign today c) st).penalties = st.penalties ∧
      (vs.foldl (insertAssign today c) st).nextCodeId = st.nextCodeId ∧
      (vs.foldl (insertAssign today c) st).nextUserId = st.nextUserId := by
  intro vs
  induction vs with
  | nil => intro st; exact ⟨rfl, rfl, rfl, rfl, rfl, rfl⟩
  | cons v vs ih => intro st; simpa [List.foldl] using ih (insertAssign today c st v)

theorem insertLoop_mem_assignments (today : Nat) (c : Code) :
    ∀ (vs : List Nat) (st : State) (a : Assign),
      a ∈ (vs.foldl (insertAssign today c) st).assignments →
      a ∈ st.assignments ∨ a.codeId = c.id := by
  intro vs
  induction vs with
  | nil => intro st a ha; exact Or.inl ha
  | cons v vs ih =>
      intro st a ha
      rcases ih (insertAssign today c st v) a ha with h | h
      · rcases List.mem_append.mp h with h | h
        · exact Or.inl h
        · simp only [List.mem_singleton] at h
          subst h
          exact Or.inr rfl
      · exact Or.inr h

theorem pairRowCount_insertAssign (today : Nat) (c : Code) (st : State) (v : Nat)
    (hc : st.codes.find? (fun x => x.id == c.id) = some c) (o w : Nat) :
    pairRowCount (insertAssign today c st v) o w =
      pairRowCount st o w + if w = v ∧ c.owner = o then 1 else 0 := by
  unfold pairRowCount insertAssign
  simp only [List.countP_append, List.countP_cons, List.countP_nil, Nat.zero_add]
  congr 1
  simp only [hc, Option.any_some]
  by_cases h1 : w = v
  · by_cases h2 : c.owner = o
    · simp [h1, h2]
    · simp [h1, h2, fun h => h2 (by simpa using h)]
  · have : (v == w) = false := by
      simp [beq_iff_eq]
      exact fun h => h1 h.symm
    simp [this, h1]

theorem totalRowCount_insertAssign (today : Nat) (c : Code) (st : State) (v cid : Nat) :
    totalRowCount (insertAssign today c st v) cid =
      totalRowCount st cid + if c.id = cid then 1 else 0 := by
  unfold totalRowCount insertAssign
  simp only [List.countP_append, List.countP_cons, List.countP_nil, Nat.zero_add]
  congr 1
  by_cases h : c.id = cid <;> simp [h]

theorem totalRowCount_insertLoop_self (today : Nat) (c : Code) :
    ∀ (vs : List Nat) (st : State),
      totalRowCount (vs.foldl (insertAssign today c) st) c.id =
        totalRowCount st c.id + vs.length := by
  intro vs
  induction vs with
  | nil => intro st; rfl
  | cons v vs ih =>
      intro st
      rw [List.foldl_cons, ih, totalRowCount_insertAssign]
      simp [Nat.add_comm, Nat.add_assoc, Nat.add_left_comm]

theorem totalRowCount_insertLoop_other (today : Nat) (c : Code) (cid : Nat) (hne : c.id ≠ cid) :
    ∀ (vs : List Nat) (st : State),
      totalRowCount (vs.foldl (insertAssign today c) st) cid = totalRowCount st cid := by
  intro vs
  induction vs with
  | nil => intro st; rfl
  | cons v vs ih =>
      intro st
      rw [List.foldl_cons, ih, totalRowCount_insertAssign]
      simp [hne]

theorem pairRowCount_eq_zero_of_not_seen (st : State) (o v : Nat)
    (h : v ∉ seenViewers st o) : pairRowCount st o v = 0 := by
  by_contra hne
  have hpos := Nat.pos_of_ne_zero hne
  rw [pairRowCount, List.countP_pos] at hpos
  rcases hpos with ⟨a, ha, hpa⟩
  rcases (Bool.and_eq_true _ _).mp hpa with ⟨hv, how⟩
  apply h
  unfold seenViewers
  refine List.mem_map.mpr ⟨a, List.mem_filter.mpr ⟨ha, how⟩, ?_⟩
  exact (beq_iff_eq.mp hv)

theorem pairBound_insertLoop (today : Nat) (c : Code) :
    ∀ (vs : List Nat) (st : State),
      st.codes.find? (fun x => x.id == c.id) = some c →
      vs.Nodup →
      (∀ v ∈ vs, pairRowCount st c.owner v = 0) →
      (∀ o w, pairRowCount st o w ≤ 1) →
      ∀ o w, pairRowCount (vs.foldl (insertAssign today c) st) o w ≤ 1 := by
  intro vs
  induction vs with
  | nil => intro st _ _ _ hb; exact hb
  | cons v vs ih =>
      intro st hc hnd h0 hb
      rw [List.foldl_cons]
      have hnd' := List.nodup_cons.mp hnd
      refine ih (insertAssign today c st v) hc hnd'.2 ?_ ?_
      · intro v' hv'
        rw [pairRowCount_insertAssign today c st v hc]
        have hne : v' ≠ v := fun he => hnd'.1 (he ▸ hv')
        have hcond : ¬ (v' = v ∧ c.owner = c.owner) := fun hx => hne hx.1
        rw [if_neg hcond, Nat.add_zero]
        exact h0 v' (List.mem_cons_of_mem _ hv')
      · intro o w
        rw [pairRowCount_insertAssign today c st v hc]
        by_cases hcase : w = v ∧ c.owner = o
        · rw [if_pos hcase]
          have : pairRowCount st o w = 0 := by
            rcases hcase with ⟨rfl, rfl⟩
            exact h0 w (List.mem_cons_self _ _)
          omega
        · rw [if_neg hcase, Nat.add_zero]
          exact hb o w

theorem eq_of_mem_id {α : Type} (key : α → Nat) {l : List α} {c c' : α}
    (hnd : (l.map key).Nodup) (hc : c ∈ l) (hc' : c' ∈ l) (hk : key c = key c') : c = c' := by
  have h1 := find?_key_eq key hnd hc
  have h2 := find?_key_eq key hnd hc'
  rw [hk] at h1
  rw [h1] at h2
  exact Option.some.inj h2

theorem remainingPool_nodup (st : State) (allIds : List Nat) (c : Code)
    (hnd : allIds.Nodup) : (remainingPool st allIds c).Nodup :=
  (hnd.filter _).filter _

theorem mem_remainingPool_not_seen {st : State} {allIds : List Nat} {c : Code} {v : Nat}
    (h : v ∈ remainingPool st allIds c) : v ∉ seenViewers st c.owner := by
  have := (List.mem_filter.mp h).2
  simp [List.contains] at this
  exact this

theorem distributeCode_frame (sh : List Nat → List Nat) (today : Nat) (allIds : List Nat)
    (lim : Nat) (st : State) (c : Code) : DFrame st (distributeCode sh today allIds lim st c) := by
  unfold distributeCode DFrame
  obtain ⟨h1, h2, h3, h4, h5, h6⟩ := insertLoop_frame today c
    ((sh (remainingPool st allIds c)).take (if c.viewsPerDay ≠ 0 then c.viewsPerDay else lim)) st
  exact ⟨h1, h2, h3, h4, h5, h6⟩

theorem DFrame_refl (s : State) : DFrame s s := ⟨rfl, rfl, rfl, rfl, rfl, rfl⟩

theorem DFrame_trans {s1 s2 s3 : State} (h1 : DFrame s1 s2) (h2 : DFrame s2 s3) :
    DFrame s1 s3 := by
  obtain ⟨a1, b1, c1, d1, e1, f1⟩ := h1
  obtain ⟨a2, b2, c2, d2, e2, f2⟩ := h2
  exact ⟨a2.trans a1, b2.trans b1, c2.trans c1, d2.trans d1, e2.trans e1, f2.trans f1⟩

theorem pairBound_distributeCode (sh : List Nat → List Nat) (today : Nat)
    (allIds : List Nat) (lim : Nat) (st : State) (c : Code)
    (hsh : ∀ l, (sh l).Perm l) (hnd : allIds.Nodup)
    (hc : st.codes.find? (fun x => x.id == c.id) = some c)
    (hb : ∀ o w, pairRowCount st o w ≤ 1) :
    ∀ o w, pairRowCount (distributeCode sh today allIds lim st c) o w ≤ 1 := by
  unfold distributeCode
  refine pairBound_insertLoop today c _ st hc ?_ ?_ hb
  · refine List.Nodup.sublist (List.take_sublist _ _) ?_
    exact ((hsh (remainingPool st allIds c)).nodup_iff).mpr (remainingPool_nodup st allIds c hnd)
  · intro v hv
    have hv1 : v ∈ sh (remainingPool st allIds c) :=
      List.mem_of_mem_take hv
    have hv2 : v ∈ remainingPool st allIds c :=
      ((hsh (remainingPool st allIds c)).mem_iff).mp hv1
    exact pairRowCount_eq_zero_of_not_seen st c.owner v (mem_remainingPool_not_seen hv2)

theorem totalRowCount_distributeCode_self (sh : List Nat → List Nat) (today : Nat)
    (allIds : List Nat) (lim : Nat) (st : State) (c : Code) (hsh : ∀ l, (sh l).Perm l) :
    totalRowCount (distributeCode sh today allIds lim st c) c.id =
      totalRowCount st c.id +
        min (if c.viewsPerDay ≠ 0 then c.viewsPerDay else lim) (remainingPool st allIds c).length := by
  unfold distributeCode
  rw [totalRowCount_insertLoop_self]
  congr 1
  rw [List.length_take, (hsh (remainingPool st allIds c)).length_eq]

theorem totalRowCount_distributeCode_other (sh : List Nat → List Nat) (today : Nat)
    (allIds : List Nat) (lim : Nat) (st : State) (c : Code) (cid : Nat) (hne : c.id ≠ cid) :
    totalRowCount (distributeCode sh today allIds lim st c) cid = totalRowCount st cid := by
  unfold distributeCode
  exact totalRowCount_insertLoop_other today c cid hne _ st

theorem distributeCode_mem_assignments (sh : List Nat → List Nat) (today : Nat)
    (allIds : List Nat) (lim : Nat) (st : State) (c : Code) (a : Assign)
    (ha : a ∈ (distributeCode sh today allIds lim st c).assignments) :
    a ∈ st.assignments ∨ a.codeId = c.id := by
  unfold distributeCode at ha
  exact insertLoop_mem_assignments today c _ st a ha

theorem totalRowCount_eq_zero_of_selected (s : State) (g : Nat)
    (hndc : (s.codes.map (fun c => c.id)).Nodup) (c : Code)
    (hc : c ∈ codesForDay s g (nextDayOf s g)) : totalRowCount s c.id = 0 := by
  by_contra hne
  have hpos := Nat.pos_of_ne_zero hne
  rw [totalRowCount, List.countP_pos] at hpos
  obtain ⟨a, ha, hpa⟩ := hpos
  have hcid : a.codeId = c.id := beq_iff_eq.mp hpa
  obtain ⟨hmem, hpred⟩ := List.mem_filter.mp hc
  rw [Bool.and_eq_true, Bool.and_eq_true] at hpred
  obtain ⟨⟨_, hany⟩, hday⟩ := hpred
  have hfind : s.codes.find? (fun x => x.id == a.codeId) = some c := by
    rw [hcid]
    exact find?_key_eq (fun x => x.id) hndc hmem
  have hcontrib : dayOfCode s.codes s.users g a.codeId = some c.dayNumber := by
    unfold dayOfCode
    rw [hfind]
    simp [hany]
  have hmemFM : c.dayNumber ∈
      (s.assignments.map (fun a => a.codeId)).filterMap (dayOfCode s.codes s.users g) :=
    List.mem_filterMap.mpr ⟨a.codeId, List.mem_map_of_mem _ ha, hcontrib⟩
  have hle : c.dayNumber ≤ maxAssignedDay s g := le_foldr_max hmemFM
  have hd : c.dayNumber = nextDayOf s g := beq_iff_eq.mp hday
  rw [hd] at hle
  unfold nextDayOf at hle
  omega

theorem foldCodes_preserves (sh : List Nat → List Nat) (today : Nat) (allIds : List Nat)
    (lim : Nat) (base : State)
    (hsh : ∀ l, (sh l).Perm l) (hnd : allIds.Nodup)
    (hndc : (base.codes.map (fun c => c.id)).Nodup)
    (hcbnd : ∀ c ∈ base.codes, c.id < base.nextCodeId) :
    ∀ (cs : List Code) (st : State),
      DFrame base st →
      (∀ c ∈ cs, c ∈ base.codes) →
      ((cs.map (fun c => c.id)).Nodup) →
      (∀ c ∈ cs, totalRowCount st c.id = 0) →
      (∀ o w, pairRowCount st o w ≤ 1) →
      (∀ c ∈ base.codes, c.viewsPerDay ≠ 0 → totalRowCount st c.id ≤ c.viewsPerDay) →
      (∀ a ∈ st.assignments, a.codeId < base.nextCodeId) →
      DFrame base (cs.foldl (distributeCode sh today allIds lim) st) ∧
      (∀ o w, pairRowCount (cs.foldl (distributeCode sh today allIds lim) st) o w ≤ 1) ∧
      (∀ c ∈ base.codes, c.viewsPerDay ≠ 0 →
        totalRowCount (cs.foldl (distributeCode sh today allIds lim) st) c.id ≤ c.viewsPerDay) ∧
      (∀ a ∈ (cs.foldl (distributeCode sh today allIds lim) st).assignments,
        a.codeId < base.nextCodeId) := by
  intro cs
  induction cs with
  | nil => intro st hf _ _ _ hp hcap habnd; exact ⟨hf, hp, hcap, habnd⟩
  | cons c cs ih =>
      intro st hf hsub hcnd hz hp hcap habnd
      rw [List.foldl_cons]
      have hfr : DFrame st (distributeCode sh today allIds lim st c) :=
        distributeCode_frame sh today allIds lim st c
      have hcodes_st : st.codes = base.codes := hf.2.1
      have hcmem : c ∈ base.codes := hsub c (List.mem_cons_self _ _)
      have hfind : st.codes.find? (fun x => x.id == c.id) = some c := by
        rw [hcodes_st]
        exact find?_key_eq (fun x => x.id) hndc hcmem
      have hp1 : ∀ o w, pairRowCount (distributeCode sh today allIds lim st c) o w ≤ 1 :=
        pairBound_distributeCode sh today allIds lim st c hsh hnd hfind hp
      have hzc : totalRowCount st c.id = 0 := hz c (List.mem_cons_self _ _)
      have hnd' : c.id ∉ cs.map (fun x => x.id) ∧ (cs.map (fun x => x.id)).Nodup :=
        List.nodup_cons.mp (by simpa using hcnd)
      have hz1 : ∀ c' ∈ cs, totalRowCount (distributeCode sh today allIds lim st c) c'.id = 0 := by
        intro c' hc'
        have hne : c.id ≠ c'.id := fun he => hnd'.1 (he ▸ List.mem_map_of_mem _ hc')
        rw [totalRowCount_distributeCode_other sh today allIds lim st c c'.id hne]
        exact hz c' (List.mem_cons_of_mem _ hc')
      have hcap1 : ∀ c' ∈ base.codes, c'.viewsPerDay ≠ 0 →
          totalRowCount (distributeCode sh today allIds lim st c) c'.id ≤ c'.viewsPerDay := by
        intro c' hc' hvp
        by_cases hid : c.id = c'.id
        · have heq : c = c' := eq_of_mem_id (fun x => x.id) hndc hcmem hc' hid
          subst heq
          rw [totalRowCount_distributeCode_self sh today allIds lim st c hsh, hzc, if_pos hvp,
            Nat.zero_add]
          exact Nat.min_le_left _ _
        · rw [totalRowCount_distributeCode_other sh today allIds lim st c c'.id hid]
          exact hcap c' hc' hvp
      have habnd1 : ∀ a ∈ (distributeCode sh today allIds lim st c).assignments,
          a.codeId < base.nextCodeId := by
        intro a ha
        rcases distributeCode_mem_assignments sh today allIds lim st c a ha with h | h
        · exact habnd a h
        · rw [h]; exact hcbnd c hcmem
      exact ih (distributeCode sh today allIds lim st c) (DFrame_trans hf hfr)
        (fun c' h => hsub c' (List.mem_cons_of_mem _ h)) hnd'.2 hz1 hp1 hcap1 habnd1

theorem distributeGroup_preserves (sh : List Nat → List Nat) (today : Nat) (base : State)
    (hsh : ∀ l, (sh l).Perm l)
    (hndu : (base.users.map (fun u => u.id)).Nodup)
    (hndc : (base.codes.map (fun c => c.id)).Nodup)
    (hcbnd : ∀ c ∈ base.codes, c.id < base.nextCodeId)
    (g : Group) (st : State) (hf : DFrame base st)
    (hp : ∀ o w, pairRowCount st o w ≤ 1)
    (hcap : ∀ c ∈ base.codes, c.viewsPerDay ≠ 0 → totalRowCount st c.id ≤ c.viewsPerDay)
    (habnd : ∀ a ∈ st.assignments, a.codeId < base.nextCodeId) :
    DFrame base (distributeGroup sh today st g) ∧
    (∀ o w, pairRowCount (distributeGroup sh today st g) o w ≤ 1) ∧
    (∀ c ∈ base.codes, c.viewsPerDay ≠ 0 →
      totalRowCount (distributeGroup sh today st g) c.id ≤ c.viewsPerDay) ∧
    (∀ a ∈ (distributeGroup sh today st g).assignments, a.codeId < base.nextCodeId) := by
  have husers : st.users = base.users := hf.1
  have hcodes : st.codes = base.codes := hf.2.1
  have hndall : (usersInGroup st g.id).Nodup := by
    unfold usersInGroup
    rw [husers]
    exact List.Nodup.sublist ((List.filter_sublist _).map _) hndu
  have hndc_st : (st.codes.map (fun c => c.id)).Nodup := by rw [hcodes]; exact hndc
  have hz : ∀ c ∈ codesForDay st g.id (nextDayOf st g.id), totalRowCount st c.id = 0 :=
    fun c hc => totalRowCount_eq_zero_of_selected st g.id hndc_st c hc
  have hsub : ∀ c ∈ codesForDay st g.id (nextDayOf st g.id), c ∈ base.codes := by
    intro c hc
    rw [← hcodes]
    exact (List.mem_filter.mp hc).1
  have hcnd : ((codesForDay st g.id (nextDayOf st g.id)).map (fun c => c.id)).Nodup :=
    List.Nodup.sublist ((List.filter_sublist _).map _) hndc_st
  exact foldCodes_preserves sh today (usersInGroup st g.id) g.dailyCodesLimit base hsh hndall
    hndc hcbnd _ st hf hsub hcnd hz hp hcap habnd

theorem runDaily_preserves (sh : List Nat → List Nat) (today : Nat) (s : State)
    (hsh : ∀ l, (sh l).Perm l)
    (hndu : (s.users.map (fun u => u.id)).Nodup)
    (hndc : (s.codes.map (fun c => c.id)).Nodup)
    (hcbnd : ∀ c ∈ s.codes, c.id < s.nextCodeId)
    (hp : ∀ o w, pairRowCount s o w ≤ 1)
    (hcap : ∀ c ∈ s.codes, c.viewsPerDay ≠ 0 → totalRowCount s c.id ≤ c.viewsPerDay)
    (habnd : ∀ a ∈ s.assignments, a.codeId < s.nextCodeId) :
    DFrame s (runDailyDistribution sh today s) ∧
    (∀ o w, pairRowCount (runDailyDistribution sh today s) o w ≤ 1) ∧
    (∀ c ∈ s.codes, c.viewsPerDay ≠ 0 →
      totalRowCount (runDailyDistribution sh today s) c.id ≤ c.viewsPerDay) ∧
    (∀ a ∈ (runDailyDistribution sh today s).assignments, a.codeId < s.nextCodeId) := by
  unfold runDailyDistribution
  have h : ∀ (gs : List Group) (st : State), DFrame s st →
      (∀ o w, pairRowCount st o w ≤ 1) →
      (∀ c ∈ s.codes, c.viewsPerDay ≠ 0 → totalRowCount st c.id ≤ c.viewsPerDay) →
      (∀ a ∈ st.assignments, a.codeId < s.nextCodeId) →
      DFrame s (gs.foldl (distributeGroup sh today) st) ∧
      (∀ o w, pairRowCount (gs.foldl (distributeGroup sh today) st) o w ≤ 1) ∧
      (∀ c ∈ s.codes, c.viewsPerDay ≠ 0 →
        totalRowCount (gs.foldl (distributeGroup sh today) st) c.id ≤ c.viewsPerDay) ∧
      (∀ a ∈ (gs.foldl (distributeGroup sh today) st).assignments, a.codeId < s.nextCodeId) := by
    intro gs
    induction gs with
    | nil => intro st hf hp1 hcap1 habnd1; exact ⟨hf, hp1, hcap1, habnd1⟩
    | cons g gs ih =>
        intro st hf hp1 hcap1 habnd1
        rw [List.foldl_cons]
        obtain ⟨hf2, hp2, hcap2, habnd2⟩ :=
          distributeGroup_preserves sh today s hsh hndu hndc hcbnd g st hf hp1 hcap1 habnd1
        exact ih _ hf2 hp2 hcap2 habnd2
  exact h (eligibleGroups s) s (DFrame_refl s) hp hcap habnd

theorem inv_runDailyDistribution (sh : List Nat → List Nat) (today : Nat) (s : State)
    (hsh : ∀ l, (sh l).Perm l) (hinv : Inv s) : Inv (runDailyDistribution sh today s) := by
  obtain ⟨hfr, hp, hcap, habnd⟩ := runDaily_preserves sh today s hsh hinv.unodup hinv.cnodup
    hinv.cbnd hinv.pair hinv.cap hinv.abnd
  obtain ⟨hu, hc, _, hpen, hnci, hnui⟩ := hfr
  constructor
  · rw [hu]; exact hinv.unodup
  · rw [hu, hnui]; exact hinv.ubnd
  · rw [hc]; exact hinv.cnodup
  · rw [hc, hnci]; exact hinv.cbnd
  · rw [hnci]; exact habnd
  · rw [hpen]; exact hinv.pnodup
  · exact hp
  · rw [hc, hnci] at *
    rw [hc]
    exact hcap

theorem countP_map_eq {α : Type} (f : α → α) (p : α → Bool) (hp : ∀ x, p (f x) = p x)
    (l : List α) : (l.map f).countP p = l.countP p := by
  rw [List.countP_map]
  exact List.countP_congr (fun x _ => by rw [Function.comp_apply, hp])

theorem find?_map_of_pred {α : Type} (f : α → α) (p : α → Bool) (hp : ∀ x, p (f x) = p x) :
    ∀ l : List α, (l.map f).find? p = (l.find? p).map f := by
  intro l
  induction l with
  | nil => rfl
  | cons x xs ih =>
      rcases h : p x with _ | _
      · rw [List.map_cons, List.find?_cons_of_neg _ (by rw [hp x, h]; exact Bool.false_ne_true),
          List.find?_cons_of_neg _ (by rw [h]; exact Bool.false_ne_true)]
        exact ih
      · rw [List.map_cons, List.find?_cons_of_pos _ (by rw [hp x, h]),
          List.find?_cons_of_pos _ (by rw [h])]
        rfl

theorem nodup_append_singleton {α : Type} {l : List α} {x : α} (h : l.Nodup) (hx : x ∉ l) :
    (l ++ [x]).Nodup :=
  List.nodup_append.mpr ⟨h, List.nodup_singleton x, List.disjoint_singleton.mpr hx⟩

theorem map_key_map_eq {α : Type} (f : α → α) (key : α → Nat) (hk : ∀ x, key (f x) = key x)
    (l : List α) : (l.map f).map key = l.map key := by
  rw [List.map_map]
  exact List.map_congr_left (fun a _ => hk a)

theorem pairRowCount_eq_of {s s' : State} (hc : s'.codes = s.codes)
    (ha : s'.assignments = s.assignments) (o v : Nat) :
    pairRowCount s' o v = pairRowCount s o v := by
  unfold pairRowCount
  rw [hc, ha]

theorem totalRowCount_eq_of {s s' : State} (ha : s'.assignments = s.assignments) (cid : Nat) :
    totalRowCount s' cid = totalRowCount s cid := by
  unfold totalRowCount
  rw [ha]

theorem pair_pred_mapCodes (f : Code → Code) (hid : ∀ c, (f c).id = c.id)
    (how : ∀ c, (f c).owner = c.owner) (cs : List Code) (o k : Nat) :
    ((cs.map f).find? (fun c => c.id == k)).any (fun c => c.owner == o) =
    (cs.find? (fun c => c.id == k)).any (fun c => c.owner == o) := by
  rw [find?_map_of_pred f (fun c => c.id == k) (fun x => by simp only [hid])]
  rcases h : cs.find? (fun c => c.id == k) with _ | c
  · rw [h]
    rfl
  · rw [h]
    simp [how]

theorem pair_pred_filter_codes (q : Code → Bool) (cs : List Code)
    (hnd : (cs.map (fun c => c.id)).Nodup) (o k : Nat)
    (h : ((cs.filter q).find? (fun c => c.id == k)).any (fun c => c.owner == o) = true) :
    (cs.find? (fun c => c.id == k)).any (fun c => c.owner == o) = true := by
  rcases hf : (cs.filter q).find? (fun c => c.id == k) with _ | c
  · rw [hf] at h
    cases h
  · rw [hf] at h
    have hcmem : c ∈ cs.filter q := List.mem_of_find?_eq_some hf
    have hck : c.id = k := by
      have h2 := List.find?_some hf
      simp only [beq_iff_eq] at h2
      exact h2
    have hmem : c ∈ cs := (List.mem_filter.mp hcmem).1
    have hfind : cs.find? (fun x => x.id == k) = some c := by
      rw [← hck]
      exact find?_key_eq (fun x => x.id) hnd hmem
    rw [hfind]
    exact h

theorem pair_pred_codes_append (cs : List Code) (c0 : Code) (k : Nat) (hk : k ≠ c0.id) (o : Nat) :
    ((cs ++ [c0]).find? (fun c => c.id == k)).any (fun c => c.owner == o) =
    (cs.find? (fun c => c.id == k)).any (fun c => c.owner == o) := by
  rw [List.find?_append]
  have h0 : [c0].find? (fun c => c.id == k) = none := by
    rw [List.find?_cons_of_neg _ ?_, List.find?_nil]
    simp [beq_iff_eq]
    exact fun h => hk h.symm
  rw [h0, Option.or_none]

theorem inv_userAppend (s : State) (gid : Nat) (t : State) (hinv : Inv s)
    (hu : t.users = s.users ++ [⟨s.nextUserId, gid⟩]) (hnu : t.nextUserId = s.nextUserId + 1)
    (hc : t.codes = s.codes) (ha : t.assignments = s.assignments)
    (hp : t.penalties = s.penalties) (hnc : t.nextCodeId = s.nextCodeId) : Inv t := by
  have hnotin : s.nextUserId ∉ s.users.map (fun u => u.id) := by
    intro hmem
    rcases List.mem_map.mp hmem with ⟨u, hu', he⟩
    have := hinv.ubnd u hu'
    omega
  constructor
  · rw [hu, List.map_append]
    simpa using nodup_append_singleton hinv.unodup hnotin
  · intro u hmem
    rw [hu] at hmem
    rw [hnu]
    rcases List.mem_append.mp hmem with h | h
    · have := hinv.ubnd u h
      omega
    · simp only [List.mem_singleton] at h
      subst h
      exact Nat.lt_succ_self _
  · rw [hc]; exact hinv.cnodup
  · rw [hc, hnc]; exact hinv.cbnd
  · rw [ha, hnc]; exact hinv.abnd
  · rw [hp]; exact hinv.pnodup
  · intro o v
    rw [pairRowCount_eq_of hc ha]
    exact hinv.pair o v
  · rw [hc]
    intro c hcm hvp
    rw [totalRowCount_eq_of ha]
    exact hinv.cap c hcm hvp

theorem inv_registerUser (s : State) (hinv : Inv s) : Inv (registerUser s) := by
  unfold registerUser
  rcases firstOpenGroup s with _ | g
  · exact inv_userAppend s (newGroup s).id _ hinv rfl rfl rfl rfl rfl rfl
  · exact inv_userAppend s g.id _ hinv rfl rfl rfl rfl rfl rfl

theorem inv_codeAppend (s : State) (owner day vp : Nat) (hinv : Inv s) :
    Inv { s with codes := s.codes ++ [⟨s.nextCodeId, owner, day, CStatus.active, vp⟩],
                 nextCodeId := s.nextCodeId + 1 } := by
  set c0 : Code := ⟨s.nextCodeId, owner, day, CStatus.active, vp⟩ with hc0
  have hc0id : c0.id = s.nextCodeId := rfl
  have hfresh : ∀ a ∈ s.assignments, a.codeId ≠ c0.id := by
    intro a ha h
    have := hinv.abnd a ha
    rw [hc0id] at h
    omega
  have hnotin : c0.id ∉ s.codes.map (fun c => c.id) := by
    intro hmem
    rcases List.mem_map.mp hmem with ⟨c, hc', he⟩
    have := hinv.cbnd c hc'
    rw [hc0id] at he
    omega
  constructor
  · exact hinv.unodup
  · exact hinv.ubnd
  · show ((s.codes ++ [c0]).map (fun c => c.id)).Nodup
    rw [List.map_append]
    simpa using nodup_append_singleton hinv.cnodup hnotin
  · intro c hcm
    show c.id < s.nextCodeId + 1
    rcases List.mem_append.mp hcm with h | h
    · have := hinv.cbnd c h
      omega
    · simp only [List.mem_singleton] at h
      subst h
      rw [hc0id]
      exact Nat.lt_succ_self _
  · intro a ha
    show a.codeId < s.nextCodeId + 1
    have := hinv.abnd a ha
    omega
  · exact hinv.pnodup
  · intro o v
    show List.countP (fun a => a.viewer == v &&
        ((s.codes ++ [c0]).find? (fun c => c.id == a.codeId)).any
          (fun c => c.owner == o)) s.assignments ≤ 1
    refine le_trans (le_of_eq (List.countP_congr fun a ha => ?_)) (hinv.pair o v)
    rw [pair_pred_codes_append s.codes c0 a.codeId (hfresh a ha) o]
  · intro c hcm hvpc
    show List.countP (fun a => a.codeId == c.id) s.assignments ≤ c.viewsPerDay
    rcases List.mem_append.mp hcm with h | h
    · exact hinv.cap c h hvpc
    · simp only [List.mem_singleton] at h
      subst h
      have hz : List.countP (fun a => a.codeId == c0.id) s.assignments = 0 := by
        rw [List.countP_eq_zero]
        intro a ha
        simp only [beq_iff_eq]
        simpa using hfresh a ha
      rw [hz]
      exact Nat.zero_le _

theorem inv_uploadCodes (owner n : Nat) (s : State) (hinv : Inv s) :
    Inv (uploadCodes owner n s) := by
  unfold uploadCodes
  rcases hf : s.users.find? (fun u => u.id == owner) with _ | u <;> rw [hf]
  · exact hinv
  · have h : ∀ (idxs : List Nat) (st : State), Inv st →
        Inv (idxs.foldl (fun st i =>
          { st with
            codes := st.codes ++ [⟨st.nextCodeId, owner, i + 1, CStatus.active,
              groupLimitFor s u.groupId⟩],
            nextCodeId := st.nextCodeId + 1 }) st) := by
      intro idxs
      induction idxs with
      | nil => intro st h; exact h
      | cons i idxs ih =>
          intro st h
          rw [List.foldl_cons]
          exact ih _ (inv_codeAppend st owner (i + 1) (groupLimitFor s u.groupId) h)
    exact h (List.range n) s hinv

theorem inv_mapAssign (s : State) (f : Assign → Assign)
    (hcid : ∀ a, (f a).codeId = a.codeId) (hv : ∀ a, (f a).viewer = a.viewer)
    (hinv : Inv s) : Inv { s with assignments := s.assignments.map f } := by
  constructor
  · exact hinv.unodup
  · exact hinv.ubnd
  · exact hinv.cnodup
  · exact hinv.cbnd
  · intro a ha
    rcases List.mem_map.mp ha with ⟨b, hb, he⟩
    subst he
    show (f b).codeId < s.nextCodeId
    rw [hcid]
    exact hinv.abnd b hb
  · exact hinv.pnodup
  · intro o v
    show ((s.assignments.map f).countP _) ≤ 1
    rw [countP_map_eq f _ (fun a => by rw [hcid, hv])]
    exact hinv.pair o v
  · intro c hcm hvp
    show ((s.assignments.map f).countP _) ≤ _
    rw [countP_map_eq f _ (fun a => by rw [hcid])]
    exact hinv.cap c hcm hvp

theorem inv_mapCodes (s : State) (f : Code → Code)
    (hid : ∀ c, (f c).id = c.id) (how : ∀ c, (f c).owner = c.owner)
    (hvp : ∀ c, (f c).viewsPerDay = c.viewsPerDay)
    (hinv : Inv s) : Inv { s with codes := s.codes.map f } := by
  constructor
  · exact hinv.unodup
  · exact hinv.ubnd
  · show ((s.codes.map f).map (fun c => c.id)).Nodup
    rw [map_key_map_eq f _ hid]
    exact hinv.cnodup
  · intro c hcm
    rcases List.mem_map.mp hcm with ⟨b, hb, he⟩
    subst he
    show (f b).id < s.nextCodeId
    rw [hid]
    exact hinv.cbnd b hb
  · exact hinv.abnd
  · exact hinv.pnodup
  · intro o v
    show (s.assignments.countP (fun a => a.viewer == v &&
        ((s.codes.map f).find? (fun c => c.id == a.codeId)).any (fun c => c.owner == o))) ≤ 1
    calc s.assignments.countP (fun a => a.viewer == v &&
          ((s.codes.map f).find? (fun c => c.id == a.codeId)).any (fun c => c.owner == o))
        = s.assignments.countP (fun a => a.viewer == v &&
            (s.codes.find? (fun c => c.id == a.codeId)).any (fun c => c.owner == o)) := by
          refine List.countP_congr (fun a _ => ?_)
          rw [pair_pred_mapCodes f hid how s.codes o a.codeId]
      _ ≤ 1 := hinv.pair o v
  · intro c hcm hvpc
    rcases List.mem_map.mp hcm with ⟨b, hb, he⟩
    subst he
    show totalRowCount _ (f b).id ≤ (f b).viewsPerDay
    have h1 : totalRowCount { s with codes := s.codes.map f } (f b).id =
        totalRowCount s b.id := by
      rw [hid]
      exact totalRowCount_eq_of rfl b.id
    rw [h1, hvp]
    refine hinv.cap b hb ?_
    rw [← hvp b]
    exact hvpc

theorem inv_mapPenalties (s : State) (f : Penalty → Penalty)
    (huser : ∀ p, (f p).user = p.user) (hinv : Inv s) :
    Inv { s with penalties := s.penalties.map f } := by
  constructor
  · exact hinv.unodup
  · exact hinv.ubnd
  · exact hinv.cnodup
  · exact hinv.cbnd
  · exact hinv.abnd
  · show ((s.penalties.map f).map (fun p => p.user)).Nodup
    rw [map_key_map_eq f _ huser]
    exact hinv.pnodup
  · exact hinv.pair
  · exact hinv.cap

theorem inv_filterPenalties (s : State) (q : Penalty → Bool) (hinv : Inv s) :
    Inv { s with penalties := s.penalties.filter q } := by
  constructor
  · exact hinv.unodup
  · exact hinv.ubnd
  · exact hinv.cnodup
  · exact hinv.cbnd
  · exact hinv.abnd
  · exact List.Nodup.sublist ((List.filter_sublist _).map _) hinv.pnodup
  · exact hinv.pair
  · exact hinv.cap

theorem inv_appendPenalty (s : State) (uid today : Nat) (hinv : Inv s)
    (hnone : s.penalties.find? (fun p => p.user == uid) = none) :
    Inv { s with penalties := s.penalties ++ [⟨uid, 1, today, false⟩] } := by
  have hnotin : uid ∉ s.penalties.map (fun p => p.user) := by
    intro hmem
    rcases List.mem_map.mp hmem with ⟨p, hp', he⟩
    have := List.find?_eq_none.mp hnone p hp'
    simp [beq_iff_eq] at this
    exact this he
  constructor
  · exact hinv.unodup
  · exact hinv.ubnd
  · exact hinv.cnodup
  · exact hinv.cbnd
  · exact hinv.abnd
  · show ((s.penalties ++ [(⟨uid, 1, today, false⟩ : Penalty)]).map (fun p => p.user)).Nodup
    rw [List.map_append]
    simpa using nodup_append_singleton hinv.pnodup hnotin
  · exact hinv.pair
  · exact hinv.cap

theorem inv_purgeUser (uid : Nat) (s : State) (hinv : Inv s) : Inv (purgeUser uid s) := by
  constructor
  · exact List.Nodup.sublist ((List.filter_sublist _).map _) hinv.unodup
  · intro u hu
    exact hinv.ubnd u (List.mem_of_mem_filter hu)
  · exact List.Nodup.sublist ((List.filter_sublist _).map _) hinv.cnodup
  · intro c hc
    exact hinv.cbnd c (List.mem_of_mem_filter hc)
  · intro a ha
    exact hinv.abnd a (List.mem_of_mem_filter ha)
  · exact List.Nodup.sublist ((List.filter_sublist _).map _) hinv.pnodup
  · intro o v
    show ((s.assignments.filter _).countP _) ≤ 1
    calc (s.assignments.filter (fun a => !(a.viewer == uid))).countP
          (fun a => a.viewer == v &&
            ((s.codes.filter (fun c => !(c.owner == uid))).find?
              (fun c => c.id == a.codeId)).any (fun c => c.owner == o))
        ≤ s.assignments.countP (fun a => a.viewer == v &&
            ((s.codes.filter (fun c => !(c.owner == uid))).find?
              (fun c => c.id == a.codeId)).any (fun c => c.owner == o)) :=
          List.Sublist.countP_le _ (List.filter_sublist _)
      _ ≤ s.assignments.countP (fun a => a.viewer == v &&
            (s.codes.find? (fun c => c.id == a.codeId)).any (fun c => c.owner == o)) := by
          refine List.countP_mono_left (fun a _ h => ?_)
          rw [Bool.and_eq_true] at h
          rw [Bool.and_eq_true]
          exact ⟨h.1, pair_pred_filter_codes _ s.codes hinv.cnodup o a.codeId h.2⟩
      _ ≤ 1 := hinv.pair o v
  · intro c hc hvp
    show ((s.assignments.filter _).countP _) ≤ _
    calc (s.assignments.filter (fun a => !(a.viewer == uid))).countP
          (fun a => a.codeId == c.id)
        ≤ s.assignments.countP (fun a => a.codeId == c.id) :=
          List.Sublist.countP_le _ (List.filter_sublist _)
      _ ≤ c.viewsPerDay := hinv.cap c (List.mem_of_mem_filter hc) hvp

theorem inv_cycleReset (s : State) (hinv : Inv s) : Inv (cycleReset s) := by
  constructor
  · exact hinv.unodup
  · exact hinv.ubnd
  · exact List.nodup_nil
  · intro c hc
    cases hc
  · intro a ha
    cases ha
  · exact List.nodup_nil
  · intro o v
    show (List.countP _ []) ≤ 1
    simp
  · intro c hc
    cases hc

theorem inv_groupsAdmin (s t : State) (hinv : Inv s)
    (hu : t.users = s.users) (hc : t.codes = s.codes) (ha : t.assignments = s.assignments)
    (hp : t.penalties = s.penalties) (hnu : t.nextUserId = s.nextUserId)
    (hnc : t.nextCodeId = s.nextCodeId) : Inv t := by
  constructor
  · rw [hu]; exact hinv.unodup
  · rw [hu, hnu]; exact hinv.ubnd
  · rw [hc]; exact hinv.cnodup
  · rw [hc, hnc]; exact hinv.cbnd
  · rw [ha, hnc]; exact hinv.abnd
  · rw [hp]; exact hinv.pnodup
  · intro o v
    rw [pairRowCount_eq_of hc ha]
    exact hinv.pair o v
  · rw [hc]
    intro c hcm hvp
    rw [totalRowCount_eq_of ha]
    exact hinv.cap c hcm hvp

theorem inv_markUsed (aid actor : Nat) (s : State) (hinv : Inv s) : Inv (markUsed aid actor s) := by
  have h1 : Inv { s with assignments := s.assignments.map (fun (a : Assign) =>
      if a.id == aid then { a with used := true } else a) } := by
    refine inv_mapAssign s _ ?_ ?_ hinv
    · intro a
      by_cases h : (a.id == aid) = true <;> simp [h]
    · intro a
      by_cases h : (a.id == aid) = true <;> simp [h]
  simp only [markUsed]
  split
  · exact inv_filterPenalties _ _ h1
  · exact h1

theorem inv_moveIfFree (today ys uid : Nat) (st : State) (hinv : Inv st) :
    Inv (moveIfFree today ys uid st) := by
  unfold moveIfFree
  split
  · exact hinv
  · refine inv_mapAssign st _ ?_ ?_ hinv
    · intro a
      by_cases h : (a.viewer == uid && a.date == ys && !a.used) = true <;> simp [h]
    · intro a
      by_cases h : (a.viewer == uid && a.date == ys && !a.used) = true <;> simp [h]

theorem inv_suspendCodesOf (uid : Nat) (st : State) (hinv : Inv st) :
    Inv (suspendCodesOf uid st) := by
  unfold suspendCodesOf
  refine inv_mapCodes st _ ?_ ?_ ?_ hinv <;> intro c <;>
    by_cases h : (c.owner == uid && c.status == CStatus.active) = true <;> simp [h]

theorem inv_bumpPenalty (today uid : Nat) (st : State) (hinv : Inv st) :
    Inv (bumpPenalty today uid st) := by
  unfold bumpPenalty
  rcases hf : st.penalties.find? (fun p => p.user == uid) with _ | p <;> rw [hf]
  · exact inv_appendPenalty st uid today hinv hf
  · have h1 : Inv { st with penalties := st.penalties.map (fun q =>
        if q.user == uid then { q with missedDays := p.missedDays + 1, penaltyDate := today }
        else q) } := by
      refine inv_mapPenalties st _ ?_ hinv
      intro q
      by_cases h : (q.user == uid) = true <;> simp [h]
    by_cases hm : 2 ≤ p.missedDays + 1
    · simp only [if_pos hm]
      refine inv_mapPenalties _ _ ?_ (inv_suspendCodesOf uid _ h1)
      intro q
      by_cases h : (q.user == uid) = true <;> simp [h]
    · simp only [if_neg hm]
      exact h1

theorem inv_midnightPurge (today : Nat) (s : State) (hinv : Inv s) :
    Inv (midnightPurge today s) := by
  unfold midnightPurge
  have h : ∀ (ms : List (Nat × Nat)) (st : State), Inv st →
      Inv (ms.foldl (fun st (pr : Nat × Nat) =>
        if 3 ≤ pr.2 + 1 then purgeUser pr.1 st else st) st) := by
    intro ms
    induction ms with
    | nil => intro st h; exact h
    | cons pr ms ih =>
        intro st h
        rw [List.foldl_cons]
        by_cases hc : 3 ≤ pr.2 + 1
        · rw [if_pos hc]
          exact ih _ (inv_purgeUser pr.1 st h)
        · rw [if_neg hc]
          exact ih _ h
  exact h _ s hinv

theorem inv_handleUnusedCodes (today : Nat) (s : State) (hinv : Inv s) :
    Inv (handleUnusedCodes today s) := by
  unfold handleUnusedCodes
  have h : ∀ (us : List Nat) (st : State), Inv st →
      Inv (us.foldl (fun st uid => bumpPenalty today uid (moveIfFree today (today - 1) uid st))
        st) := by
    intro us
    induction us with
    | nil => intro st h; exact h
    | cons uid us ih =>
        intro st h
        rw [List.foldl_cons]
        exact ih _ (inv_bumpPenalty today uid _ (inv_moveIfFree today (today - 1) uid st h))
  exact h _ s hinv

theorem inv_reactivateSuspendedCodes (today : Nat) (s : State) (hinv : Inv s) :
    Inv (reactivateSuspendedCodes today s) := by
  unfold reactivateSuspendedCodes
  have h : ∀ (sel : List Nat) (st : State), Inv st →
      Inv (sel.foldl (fun st uid =>
        { st with
          codes := st.codes.map (fun c =>
            if c.owner == uid && c.status == CStatus.suspended then
              { c with status := CStatus.active } else c),
          penalties := st.penalties.filter (fun p => !(p.user == uid)) }) st) := by
    intro sel
    induction sel with
    | nil => intro st h; exact h
    | cons uid sel ih =>
        intro st h
        rw [List.foldl_cons]
        refine ih _ ?_
        have hA : Inv { st with codes := st.codes.map (fun c =>
            if c.owner == uid && c.status == CStatus.suspended then
              { c with status := CStatus.active } else c) } := by
          refine inv_mapCodes st _ ?_ ?_ ?_ h <;> intro c <;>
            by_cases hc : (c.owner == uid && c.status == CStatus.suspended) = true <;> simp [hc]
        exact inv_filterPenalties { st with codes := st.codes.map (fun c =>
            if c.owner == uid && c.status == CStatus.suspended then
              { c with status := CStatus.active } else c) } (fun p => !(p.user == uid)) hA
  exact h _ s hinv

theorem inv_midnightJob (today : Nat) (s : State) (hinv : Inv s) : Inv (midnightJob today s) :=
  inv_reactivateSuspendedCodes today _
    (inv_handleUnusedCodes today _ (inv_midnightPurge today s hinv))

theorem inv_schedulerTick (sh : List Nat → List Nat) (today hm : Nat) (s : State)
    (hsh : ∀ l, (sh l).Perm l) (hinv : Inv s) : Inv (schedulerTick sh today hm s) := by
  unfold schedulerTick
  split
  · exact inv_runDailyDistribution sh today s hsh hinv
  · exact hinv

theorem step_inv {s s' : State} (h : Step s s') (hinv : Inv s) : Inv s' := by
  cases h with
  | register => exact inv_registerUser s hinv
  | upload owner n => exact inv_uploadCodes owner n s hinv
  | distribute sh today hsh => exact inv_runDailyDistribution sh today s hsh hinv
  | tick sh today hm hsh => exact inv_schedulerTick sh today hm s hsh hinv
  | midnight today ht => exact inv_midnightJob today s hinv
  | mark aid actor => exact inv_markUsed aid actor s hinv
  | ban uid => exact inv_purgeUser uid s hinv
  | reset => exact inv_cycleReset s hinv
  | glimit gid v => exact inv_groupsAdmin s _ hinv rfl rfl rfl rfl rfl rfl
  | limitAll v => exact inv_groupsAdmin s _ hinv rfl rfl rfl rfl rfl rfl
  | gsched gid b => exact inv_groupsAdmin s _ hinv rfl rfl rfl rfl rfl rfl
  | schedAll b => exact inv_groupsAdmin s _ hinv rfl rfl rfl rfl rfl rfl
  | gpay gid b => exact inv_groupsAdmin s _ hinv rfl rfl rfl rfl rfl rfl
  | gtime gid t => exact inv_groupsAdmin s _ hinv rfl rfl rfl rfl rfl rfl
  | timeAll t => exact inv_groupsAdmin s _ hinv rfl rfl rfl rfl rfl rfl

theorem inv_initState : Inv initState := by
  constructor
  · exact List.nodup_nil
  · intro u hu
    cases hu
  · exact List.nodup_nil
  · intro c hc
    cases hc
  · intro a ha
    cases ha
  · exact List.nodup_nil
  · intro o v
    show List.countP _ [] ≤ 1
    simp
  · intro c hc
    cases hc

theorem reachable_inv {s : State} (h : Reachable s) : Inv s := by
  unfold Reachable at h
  induction h with
  | refl => exact inv_initState
  | tail _ hs ih => exact step_inv hs ih

theorem find?_eq_head?_filter {α : Type} (p : α → Bool) (l : List α) :
    l.find? p = (l.filter p).head? := by
  induction l with
  | nil => rfl
  | cons x xs ih =>
      rcases h : p x with _ | _
      · rw [List.find?_cons_of_neg _ (by rw [h]; exact Bool.false_ne_true),
          List.filter_cons_of_neg (by rw [h]; exact Bool.false_ne_true)]
        exact ih
      · rw [List.find?_cons_of_pos _ h, List.filter_cons_of_pos h]
        rfl

theorem filter_filter_key_ne {α : Type} (key : α → Nat) (v w : Nat) (hne : v ≠ w)
    (l : List α) :
    (l.filter (fun x => !(key x == w))).filter (fun x => key x == v) =
      l.filter (fun x => key x == v) := by
  rw [List.filter_filter]
  refine List.filter_congr (fun x _ => ?_)
  by_cases h : key x = v
  · have hw : (key x == w) = false := by
      simp [beq_iff_eq, h]
      exact hne
    simp [h, hw]
    exact hne
  · simp [beq_iff_eq, h]

theorem filter_filter_key_self {α : Type} (key : α → Nat) (v : Nat) (l : List α) :
    (l.filter (fun x => !(key x == v))).filter (fun x => key x == v) = [] := by
  rw [List.filter_filter]
  refine List.filter_eq_nil.mpr (fun x _ => ?_)
  by_cases h : key x = v <;> simp [h]

theorem filter_map_comm {α : Type} (p : α → Bool) (f : α → α) (hp : ∀ x, p (f x) = p x)
    (l : List α) : (l.map f).filter p = (l.filter p).map f := by
  rw [List.filter_map]
  refine congrArg (List.map f) (List.filter_congr (fun x _ => ?_))
  exact hp x

theorem filter_map_fix {α : Type} (p : α → Bool) (f : α → α) (hp : ∀ x, p (f x) = p x)
    (hfix : ∀ x, p x = true → f x = x) (l : List α) :
    (l.map f).filter p = l.filter p := by
  rw [filter_map_comm p f hp]
  have h : (l.filter p).map f = (l.filter p).map (fun x => x) :=
    List.map_congr_left (fun x hx => hfix x (List.of_mem_filter hx))
  rw [h, List.map_id_fun']
  rfl

theorem filter_append_singleton_false {α : Type} (p : α → Bool) (x : α) (hx : p x = false)
    (l : List α) : (l ++ [x]).filter p = l.filter p := by
  rw [List.filter_append, List.filter_cons_of_neg (by rw [hx]; exact Bool.false_ne_true),
    List.filter_nil, List.append_nil]

/-- C1 (counterexample).  The claim says a (owner, viewer) pairing is
created at most once over the entire lifetime of the system.  It is
false: in the reachable trace of demoA8, member 2 is assigned a code of
member 1, the monthly cycle reset erases every assignment row (and with
them the anti-repeat history the distribution filter reads), and a
later distribution run assigns another code of member 1 to member 2, so
the lifetime insertion log holds the pair (1, 2) twice. -/
theorem claim_C1_counterexample :
    ¬ (∀ s, Reachable s → ∀ o v, pairLogCount s o v ≤ 1) := by
  intro h
  exact absurd (h demoA8 reach_demoA8 1 2) (by decide)

/-- C2 (counterexample).  The claim says the number of assignment rows
of a code on one date never exceeds that code's views_per_day.  It is
false for a code stored with views_per_day = 0: in the reachable trace
of demoB7 the admin sets the daily limit to 0, member 1 uploads (the
code is stored with views_per_day = 0), the admin raises the limit to
1, and the next distribution run falls back to the group limit
(bot.js line 1613, views_per_day or daily_codes_limit) and inserts one
row, exceeding the stored cap 0. -/
theorem claim_C2_counterexample :
    ¬ (∀ s, Reachable s → ∀ c ∈ s.codes, ∀ d, dateRowCount s c.id d ≤ c.viewsPerDay) := by
  intro h
  exact absurd (h demoB7 reach_demoB7 ⟨1, 1, 1, CStatus.active, 0⟩ (by decide) 10) (by decide)

/-- C1 (amended).  At any single point in time, at most one assignment
row links a code of a given owner to a given viewer: every distribution
run removes from a code's candidate pool every member who currently has
an assignment row for any code of that code's owner, and no operation
creates a second simultaneous (owner, viewer) pairing.  The filter
reads the surviving rows rather than all history, so after a cycle
reset (or a member purge) deletes those rows, the same pair can be
created again — hence the at-most-once guarantee holds per point in
time, not over the whole lifetime. -/
theorem claim_C1_amended : ∀ s, Reachable s → ∀ o v, pairRowCount s o v ≤ 1 :=
  fun _ hs o v => (reachable_inv hs).pair o v

/-- C1 (witness).  The amended statement applied to the reachable state
demoA8, in which the pair (owner 1, viewer 2) was re-created after a
cycle reset: even then, only one live row links them. -/
theorem claim_C1_witness : pairRowCount demoA8 1 2 ≤ 1 :=
  claim_C1_amended demoA8 reach_demoA8 1 2

/-- C2 (amended).  For every code whose stored views_per_day is
nonzero, the number of assignment rows of that code on any single date
never exceeds views_per_day; and a single distribution pass over one
code inserts exactly min(effective target, remaining candidates) rows,
where the effective target is views_per_day when nonzero and otherwise
the group's current daily limit (the JS falsy fallback of bot.js line
1613) — the shortfall when candidates run out is silent.  For a code
stored with views_per_day = 0 the per-date count is bounded by the
group limit at distribution time, not by the stored 0. -/
theorem claim_C2_amended :
    (∀ s, Reachable s → ∀ c ∈ s.codes, c.viewsPerDay ≠ 0 →
      ∀ d, dateRowCount s c.id d ≤ c.viewsPerDay) ∧
    (∀ (sh : List Nat → List Nat), (∀ l, (sh l).Perm l) →
      ∀ (today : Nat) (allIds : List Nat) (lim : Nat) (st : State) (c : Code),
        totalRowCount (distributeCode sh today allIds lim st c) c.id =
          totalRowCount st c.id +
            min (if c.viewsPerDay ≠ 0 then c.viewsPerDay else lim)
              (remainingPool st allIds c).length) := by
  constructor
  · intro s hs c hc hvp d
    exact le_trans (dateRowCount_le_totalRowCount s c.id d) ((reachable_inv hs).cap c hc hvp)
  · intro sh hsh today allIds lim st c
    exact totalRowCount_distributeCode_self sh today allIds lim st c hsh

/-- C2 (witness).  Both parts of the amended statement at concrete
inputs: in the reachable state demoA5 code 1 (views_per_day 50) holds
at most 50 rows on day 10, and one distribution pass over that code
from demoA4 inserts exactly min(50, pool size) rows. -/
theorem claim_C2_witness :
    dateRowCount demoA5 1 10 ≤ 50 ∧
      totalRowCount (distributeCode idShuffle 10 [1, 2] 50 demoA4 ⟨1, 1, 1, CStatus.active, 50⟩) 1 =
        totalRowCount demoA4 1 +
          min 50 (remainingPool demoA4 [1, 2] ⟨1, 1, 1, CStatus.active, 50⟩).length :=
  ⟨claim_C2_amended.1 demoA5 reach_demoA5 ⟨1, 1, 1, CStatus.active, 50⟩ (by decide) (by decide) 10,
   claim_C2_amended.2 idShuffle idShuffle_perm 10 [1, 2] 50 demoA4 ⟨1, 1, 1, CStatus.active, 50⟩⟩

/-- C4 (code bug).  The claim says the terminal purge removes every row
referencing the member, including assignments that link the member's
own codes to other viewers.  At the failing input purgeDemo, member 1
(who owns code 1, assigned to viewer 2 as row 1) reaches the deletion
threshold at the midnight job of day 10: the member row, the member's
codes, the member's viewer-side assignment and penalty rows are
deleted, but row 1, which links member 1's code 1 to viewer 2,
survives, referencing a code and an owner that no longer exist. -/
theorem claim_C4_theorem :
    purgeDemo.codes = [⟨1, 1, 1, CStatus.active, 50⟩, ⟨2, 2, 1, CStatus.active, 50⟩] ∧
    (midnightJob 10 purgeDemo).users = [⟨2, 1⟩] ∧
    (midnightJob 10 purgeDemo).codes = [⟨2, 2, 1, CStatus.active, 50⟩] ∧
    (midnightJob 10 purgeDemo).assignments = [⟨1, 1, 2, 5, false⟩] ∧
    (midnightJob 10 purgeDemo).penalties = [] := by
  decide

theorem maxAssignedDay_eq_of (s s' : State) (hus : s'.users = s.users)
    (hcs : s'.codes = s.codes)
    (ha : s'.assignments.map (fun a => a.codeId) = s.assignments.map (fun a => a.codeId))
    (g : Nat) : maxAssignedDay s' g = maxAssignedDay s g := by
  unfold maxAssignedDay
  rw [hus, hcs, ha]

theorem dayOfCode_users_append (codes : List Code) (users : List User) (u0 : User)
    (g cid d : Nat) (h : dayOfCode codes users g cid = some d) :
    dayOfCode codes (users ++ [u0]) g cid = some d := by
  unfold dayOfCode at h ⊢
  rcases hf : codes.find? (fun c => c.id == cid) with _ | c <;> rw [hf] at h ⊢
  · cases h
  · have h' : (if (users.any fun u => u.id == c.owner && u.groupId == g) = true
        then some c.dayNumber else none) = some d := h
    show (if ((users ++ [u0]).any fun u => u.id == c.owner && u.groupId == g) = true
        then some c.dayNumber else none) = some d
    rcases hany : users.any (fun u => u.id == c.owner && u.groupId == g) with _ | _
    · rw [hany] at h'
      simp at h'
    · rw [List.any_append, hany]
      rw [hany] at h'
      simpa using h'

theorem dayOfCode_codes_append (codes : List Code) (c0 : Code) (users : List User)
    (g cid d : Nat) (h : dayOfCode codes users g cid = some d) :
    dayOfCode (codes ++ [c0]) users g cid = some d := by
  unfold dayOfCode at h ⊢
  rw [List.find?_append]
  rcases hf : codes.find? (fun c => c.id == cid) with _ | c <;> rw [hf] at h ⊢
  · cases h
  · exact h

theorem dayOfCode_mapCodes (f : Code → Code) (hid : ∀ c, (f c).id = c.id)
    (how : ∀ c, (f c).owner = c.owner) (hday : ∀ c, (f c).dayNumber = c.dayNumber)
    (codes : List Code) (users : List User) (g cid : Nat) :
    dayOfCode (codes.map f) users g cid = dayOfCode codes users g cid := by
  unfold dayOfCode
  rw [find?_map_of_pred f (fun c => c.id == cid) (fun x => by simp only [hid])]
  rcases hf : codes.find? (fun c => c.id == cid) with _ | c <;> rw [hf]
  · rfl
  · show (if (users.any fun u => u.id == (f c).owner && u.groupId == g) = true
        then some (f c).dayNumber else none) = _
    rw [how, hday]

theorem fold_assign_extends {α : Type} (f : State → α → State)
    (hf : ∀ st x, (∃ new, (f st x).assignments = st.assignments ++ new) ∧
      (f st x).users = st.users ∧ (f st x).codes = st.codes) :
    ∀ (xs : List α) (st : State),
      (∃ new, (xs.foldl f st).assignments = st.assignments ++ new) ∧
      (xs.foldl f st).users = st.users ∧ (xs.foldl f st).codes = st.codes := by
  intro xs
  induction xs with
  | nil => intro st; exact ⟨⟨[], (List.append_nil _).symm⟩, rfl, rfl⟩
  | cons x xs ih =>
      intro st
      rw [List.foldl_cons]
      obtain ⟨⟨new1, h1⟩, hu1, hc1⟩ := hf st x
      obtain ⟨⟨new2, h2⟩, hu2, hc2⟩ := ih (f st x)
      refine ⟨⟨new1 ++ new2, ?_⟩, hu2.trans hu1, hc2.trans hc1⟩
      rw [h2, h1, List.append_assoc]

theorem insertAssign_extends (today : Nat) (c : Code) (st : State) (v : Nat) :
    (∃ new, (insertAssign today c st v).assignments = st.assignments ++ new) ∧
      (insertAssign today c st v).users = st.users ∧
      (insertAssign today c st v).codes = st.codes :=
  ⟨⟨[⟨st.nextAssignId, c.id, v, today, false⟩], rfl⟩, rfl, rfl⟩

theorem distributeCode_extends (sh : List Nat → List Nat) (today : Nat) (allIds : List Nat)
    (lim : Nat) (st : State) (c : Code) :
    (∃ new, (distributeCode sh today allIds lim st c).assignments = st.assignments ++ new) ∧
      (distributeCode sh today allIds lim st c).users = st.users ∧
      (distributeCode sh today allIds lim st c).codes = st.codes := by
  unfold distributeCode
  exact fold_assign_extends (insertAssign today c) (insertAssign_extends today c) _ st

theorem distributeGroup_extends (sh : List Nat → List Nat) (today : Nat) (st : State)
    (g : Group) :
    (∃ new, (distributeGroup sh today st g).assignments = st.assignments ++ new) ∧
      (distributeGroup sh today st g).users = st.users ∧
      (distributeGroup sh today st g).codes = st.codes := by
  unfold distributeGroup
  exact fold_assign_extends _ (fun st' c => distributeCode_extends sh today _ _ st' c) _ st

theorem runDaily_extends (sh : List Nat → List Nat) (today : Nat) (s : State) :
    (∃ new, (runDailyDistribution sh today s).assignments = s.assignments ++ new) ∧
      (runDailyDistribution sh today s).users = s.users ∧
      (runDailyDistribution sh today s).codes = s.codes := by
  unfold runDailyDistribution
  exact fold_assign_extends _ (fun st' g => distributeGroup_extends sh today st' g) _ s

theorem maxAssignedDay_le_of_extends (s s' : State) (hus : s'.users = s.users)
    (hcs : s'.codes = s.codes) (new : List Assign)
    (ha : s'.assignments = s.assignments ++ new) (g : Nat) :
    maxAssignedDay s g ≤ maxAssignedDay s' g := by
  unfold maxAssignedDay
  rw [hus, hcs, ha, List.map_append, List.filterMap_append, foldr_max_append]
  exact Nat.le_max_left _ _

theorem maxAssignedDay_le_runDaily (sh : List Nat → List Nat) (today : Nat) (s : State)
    (g : Nat) : maxAssignedDay s g ≤ maxAssignedDay (runDailyDistribution sh today s) g := by
  obtain ⟨⟨new, ha⟩, hus, hcs⟩ := runDaily_extends sh today s
  exact maxAssignedDay_le_of_extends s _ hus hcs new ha g

theorem maxAssignedDay_le_registerUser (s : State) (g : Nat) :
    maxAssignedDay s g ≤ maxAssignedDay (registerUser s) g := by
  unfold registerUser
  rcases firstOpenGroup s with _ | g0
  all_goals {
    unfold maxAssignedDay
    refine foldr_max_filterMap_mono (fun cid d h => ?_) _
    exact dayOfCode_users_append s.codes s.users _ g cid d h
  }

theorem maxAssignedDay_le_uploadCodes (owner n : Nat) (s : State) (g : Nat) :
    maxAssignedDay s g ≤ maxAssignedDay (uploadCodes owner n s) g := by
  unfold uploadCodes
  rcases hf : s.users.find? (fun u => u.id == owner) with _ | u
  · rw [hf]
  · rw [hf]
    have h : ∀ (idxs : List Nat) (st : State),
        maxAssignedDay st g ≤ maxAssignedDay (idxs.foldl (fun st i =>
          { st with
            codes := st.codes ++ [⟨st.nextCodeId, owner, i + 1, CStatus.active,
              groupLimitFor s u.groupId⟩],
            nextCodeId := st.nextCodeId + 1 }) st) g := by
      intro idxs
      induction idxs with
      | nil => intro st; exact Nat.le_refl _
      | cons i idxs ih =>
          intro st
          rw [List.foldl_cons]
          refine le_trans ?_ (ih _)
          unfold maxAssignedDay
          refine foldr_max_filterMap_mono (fun cid d h => ?_) _
          exact dayOfCode_codes_append st.codes _ st.users g cid d h
    exact h (List.range n) s

theorem maxAssignedDay_moveIfFree (today ys uid : Nat) (st : State) (g : Nat) :
    maxAssignedDay (moveIfFree today ys uid st) g = maxAssignedDay st g := by
  unfold moveIfFree
  split
  · rfl
  · have hm : (st.assignments.map (fun (a : Assign) =>
        if a.viewer == uid && a.date == ys && !a.used then { a with date := today } else a)).map
          (fun a => a.codeId) = st.assignments.map (fun a => a.codeId) := by
      rw [List.map_map]
      refine List.map_congr_left (fun a _ => ?_)
      show (if a.viewer == uid && a.date == ys && !a.used then
        ({ a with date := today } : Assign) else a).codeId = a.codeId
      split <;> rfl
    exact maxAssignedDay_eq_of st
      { st with assignments := st.assignments.map (fun (a : Assign) =>
        if a.viewer == uid && a.date == ys && !a.used then { a with date := today } else a) }
      rfl rfl hm g

theorem maxAssignedDay_suspendCodesOf (uid : Nat) (st : State) (g : Nat) :
    maxAssignedDay (suspendCodesOf uid st) g = maxAssignedDay st g := by
  unfold suspendCodesOf maxAssignedDay
  refine congrArg (fun l => List.foldr max 0 l) ?_
  refine List.filterMap_congr (fun cid _ => ?_)
  refine dayOfCode_mapCodes _ ?_ ?_ ?_ st.codes st.users g cid <;> intro c <;>
    by_cases h : (c.owner == uid && c.status == CStatus.active) = true <;> simp [h]

theorem maxAssignedDay_markUsed (aid actor : Nat) (s : State) (g : Nat) :
    maxAssignedDay (markUsed aid actor s) g = maxAssignedDay s g := by
  have h1 : maxAssignedDay { s with assignments := s.assignments.map (fun (a : Assign) =>
      if a.id == aid then { a with used := true } else a) } g = maxAssignedDay s g := by
    have hm : (s.assignments.map (fun (a : Assign) =>
        if a.id == aid then { a with used := true } else a)).map
          (fun a => a.codeId) = s.assignments.map (fun a => a.codeId) := by
      rw [List.map_map]
      refine List.map_congr_left (fun a _ => ?_)
      show (if a.id == aid then ({ a with used := true } : Assign) else a).codeId = a.codeId
      split <;> rfl
    exact maxAssignedDay_eq_of s
      { s with assignments := s.assignments.map (fun (a : Assign) =>
        if a.id == aid then { a with used := true } else a) }
      rfl rfl hm g
  simp only [markUsed]
  split
  · exact h1
  · exact h1

theorem maxAssignedDay_bumpPenalty (today uid : Nat) (st : State) (g : Nat) :
    maxAssignedDay (bumpPenalty today uid st) g = maxAssignedDay st g := by
  unfold bumpPenalty
  rcases hf : st.penalties.find? (fun p => p.user == uid) with _ | p <;> rw [hf]
  · rfl
  · by_cases hm : 2 ≤ p.missedDays + 1
    · simp only [if_pos hm]
      have h1 := maxAssignedDay_suspendCodesOf uid
        { st with penalties := st.penalties.map (fun q =>
          if q.user == uid then { q with missedDays := p.missedDays + 1, penaltyDate := today }
          else q) } g
      exact h1
    · simp only [if_neg hm]
      rfl

theorem maxAssignedDay_handleUnusedCodes (today : Nat) (s : State) (g : Nat) :
    maxAssignedDay (handleUnusedCodes today s) g = maxAssignedDay s g := by
  unfold handleUnusedCodes
  have h : ∀ (us : List Nat) (st : State),
      maxAssignedDay (us.foldl (fun st uid =>
        bumpPenalty today uid (moveIfFree today (today - 1) uid st)) st) g =
        maxAssignedDay st g := by
    intro us
    induction us with
    | nil => intro st; rfl
    | cons uid us ih =>
        intro st
        rw [List.foldl_cons, ih, maxAssignedDay_bumpPenalty, maxAssignedDay_moveIfFree]
  exact h _ s

theorem maxAssignedDay_reactivate (today : Nat) (s : State) (g : Nat) :
    maxAssignedDay (reactivateSuspendedCodes today s) g = maxAssignedDay s g := by
  unfold reactivateSuspendedCodes
  have h : ∀ (sel : List Nat) (st : State),
      maxAssignedDay (sel.foldl (fun st uid =>
        { st with
          codes := st.codes.map (fun c =>
            if c.owner == uid && c.status == CStatus.suspended then
              { c with status := CStatus.active } else c),
          penalties := st.penalties.filter (fun p => !(p.user == uid)) }) st) g =
        maxAssignedDay st g := by
    intro sel
    induction sel with
    | nil => intro st; rfl
    | cons uid sel ih =>
        intro st
        rw [List.foldl_cons, ih]
        unfold maxAssignedDay
        refine congrArg (fun l => List.foldr max 0 l) ?_
        refine List.filterMap_congr (fun cid _ => ?_)
        refine dayOfCode_mapCodes _ ?_ ?_ ?_ st.codes st.users g cid <;> intro c <;>
          by_cases h : (c.owner == uid && c.status == CStatus.suspended) = true <;> simp [h]
  exact h _ s

theorem midnightPurge_eq_self (today : Nat) (s : State)
    (hsafe : ∀ u ∈ missedUsersList s (today - 1), storedMissed s u + 1 < 3) :
    midnightPurge today s = s := by
  unfold midnightPurge
  have h : ∀ (ms : List (Nat × Nat)), (∀ pr ∈ ms, ¬ 3 ≤ pr.2 + 1) → ∀ (st : State),
      ms.foldl (fun st (pr : Nat × Nat) =>
        if 3 ≤ pr.2 + 1 then purgeUser pr.1 st else st) st = st := by
    intro ms hms
    induction ms with
    | nil => intro st; rfl
    | cons pr ms ih =>
        intro st
        rw [List.foldl_cons, if_neg (hms pr (List.mem_cons_self _ _))]
        exact ih (fun q hq => hms q (List.mem_cons_of_mem _ hq)) st
  refine h _ ?_ s
  intro pr hpr
  rcases List.mem_map.mp hpr with ⟨u, hu, he⟩
  have := hsafe u hu
  subst he
  omega

theorem nd_step_mono {s s' : State} (h : NdStep s s') (g : Nat) :
    nextDayOf s g ≤ nextDayOf s' g := by
  unfold nextDayOf
  have hmd : maxAssignedDay s g ≤ maxAssignedDay s' g := by
    cases h with
    | register => exact maxAssignedDay_le_registerUser s g
    | upload owner n => exact maxAssignedDay_le_uploadCodes owner n s g
    | distribute sh today hsh => exact maxAssignedDay_le_runDaily sh today s g
    | tick sh today hm hsh =>
        unfold schedulerTick
        split
        · exact maxAssignedDay_le_runDaily sh today s g
        · exact le_refl _
    | midnightSafe today ht hsafe =>
        unfold midnightJob
        rw [midnightPurge_eq_self today s hsafe, maxAssignedDay_reactivate,
          maxAssignedDay_handleUnusedCodes]
    | mark aid actor => exact le_of_eq (maxAssignedDay_markUsed aid actor s g).symm
    | glimit gid v => exact le_refl _
    | limitAll v => exact le_refl _
    | gsched gid b => exact le_refl _
    | schedAll b => exact le_refl _
    | gpay gid b => exact le_refl _
    | gtime gid t => exact le_refl _
    | timeAll t => exact le_refl _
  omega

/-- C6 (amended).  The nextDay computed by the distribution engine for
a group never decreases across successive engine runs as long as no row
is deleted in between: distribution runs, scheduler ticks, penalty
increments and carry-forwards (a midnight job in which no member
reaches the deletion threshold), reactivations, mark-used actions,
registrations, uploads, and settings changes all keep it monotone.
Member deletions and the monthly cycle reset delete assignment rows and
can decrease it (see the counterexample). -/
theorem claim_C6_amended : ∀ s s', Relation.ReflTransGen NdStep s s' →
    ∀ g, nextDayOf s g ≤ nextDayOf s' g := by
  intro s s' h g
  induction h with
  | refl => exact le_refl _
  | tail _ hstep ih => exact le_trans ih (nd_step_mono hstep g)

/-- C6 (witness).  The amended statement applied to one concrete
distribution step: the run taking demoA4 to demoA5 does not decrease
nextDay of group 1. -/
theorem claim_C6_witness : nextDayOf demoA4 1 ≤ nextDayOf demoA5 1 :=
  claim_C6_amended demoA4 demoA5
    (Relation.ReflTransGen.single (NdStep.distribute demoA4 idShuffle 10 idShuffle_perm)) 1

/-- C6 (counterexample).  The claim says nextDay never decreases across
successive engine runs whatever interleaving of distribution runs,
penalty runs, member deletions, and cycle resets occurs in between.  It
is false: from the reachable state demoA5 (nextDay 2 for group 1), one
cycle-reset step deletes every assignment row and nextDay falls back
to 1. -/
theorem claim_C6_counterexample :
    ¬ (∀ s s', Reachable s → Relation.ReflTransGen Step s s' →
        ∀ g, nextDayOf s g ≤ nextDayOf s' g) := by
  intro h
  exact absurd
    (h demoA5 (cycleReset demoA5) reach_demoA5
      (Relation.ReflTransGen.single (Step.reset demoA5)) 1) (by decide)

/-- C7 (counterexample).  The claim says the shuffle puts the candidate
pool in a uniformly random order, every permutation equally likely.
Under the comparator-coin model of bot.js line 1627 (sortRand), the six
orders of a three-candidate pool are not produced equally often over
the eight equally likely sequences of three comparator coins. -/
theorem claim_C7_counterexample :
    ¬ (∀ p q : List Nat, p.Perm [0, 1, 2] → q.Perm [0, 1, 2] →
        countOutcome [0, 1, 2] 3 p = countOutcome [0, 1, 2] 3 q) := by
  intro h
  exact absurd (h [0, 1, 2] [1, 0, 2] (by decide) (by decide)) (by decide)

/-- C7 (amended).  The shuffle expression of bot.js line 1627 sorts
with a comparator that returns a fresh random sign on every call; it is
not a uniform shuffle.  Under the comparator-coin model sortRand, over
the eight equally likely three-coin sequences a three-candidate pool
keeps its original order in two of the eight cases (probability 1/4)
while the order with the first two candidates exchanged occurs in one
case (probability 1/8), so uniformity at 1/6 per order fails and
earlier-positioned candidates are favoured. -/
theorem claim_C7_theorem :
    countOutcome [0, 1, 2] 3 [0, 1, 2] = 2 ∧
    countOutcome [0, 1, 2] 3 [1, 0, 2] = 1 ∧
    (coinStreams 3).length = 8 := by
  decide

/-- C8 (counterexample).  The claim says a scheduler trigger that fires
because the current time matches one group's send_time produces
assignments only for that group.  It is false: at tickDemo, the tick at
minute 480 matches group 1's send_time, but the triggered global
distribution run inserts an assignment row for the code of group 2
(send_time 540). -/
theorem claim_C8_counterexample :
    ¬ (∀ (s : State) (sh : List Nat → List Nat), (∀ l, (sh l).Perm l) → ∀ today hm : Nat,
        ∀ a ∈ (schedulerTick sh today hm s).assignments,
          a ∈ s.assignments ∨
            ∃ g ∈ s.groups, g.sendTime = hm ∧ assignRowInGroup s a g.id = true) := by
  intro h
  have hmem : (⟨1, 1, 2, 10, false⟩ : Assign) ∈
      (schedulerTick idShuffle 10 480 tickDemo).assignments := by decide
  exact absurd (h tickDemo idShuffle idShuffle_perm 10 480 _ hmem) (by decide)

/-- C8 (amended).  The per-minute scheduler compares the wall clock
with each scheduler-active group's send_time; when no such group
matches, nothing happens, and when at least one matches, a single
global runDailyDistribution executes, distributing for every
scheduler-active, non-payment-mode group, not only the matching one. -/
theorem claim_C8_amended :
    ∀ (sh : List Nat → List Nat) (today hm : Nat) (s : State),
      ((s.groups.filter (fun g => g.schedulerActive)).any (fun g => g.sendTime == hm) = false →
        schedulerTick sh today hm s = s) ∧
      ((s.groups.filter (fun g => g.schedulerActive)).any (fun g => g.sendTime == hm) = true →
        schedulerTick sh today hm s = runDailyDistribution sh today s) := by
  intro sh today hm s
  constructor <;> intro h <;> simp [schedulerTick, h]

/-- C8 (witness).  Both cases of the amended statement at concrete
inputs: at tickDemo, minute 500 matches no group and the state is
unchanged; minute 480 matches group 1 and the tick equals one global
distribution run. -/
theorem claim_C8_witness :
    schedulerTick idShuffle 10 500 tickDemo = tickDemo ∧
      schedulerTick idShuffle 10 480 tickDemo = runDailyDistribution idShuffle 10 tickDemo :=
  ⟨(claim_C8_amended idShuffle 10 500 tickDemo).1 (by decide),
   (claim_C8_amended idShuffle 10 480 tickDemo).2 (by decide)⟩

theorem userIds_any (s : State) (actor : Nat) (hmem : actor ∈ userIds s) :
    (s.users.any (fun u => u.id == actor)) = true := by
  rcases List.mem_map.mp hmem with ⟨u, hu, he⟩
  refine List.any_eq_true.mpr ⟨u, hu, ?_⟩
  simp [beq_iff_eq, he]

theorem markUsed_eq_of_any (aid actor : Nat) (s : State)
    (hany : (s.users.any (fun u => u.id == actor)) = true) :
    markUsed aid actor s = { s with
      assignments := s.assignments.map (fun (a : Assign) =>
        if a.id == aid then { a with used := true } else a),
      penalties := s.penalties.filter (fun p => !(p.user == actor)) } := by
  simp only [markUsed]
  split
  · rfl
  · rename_i h
    exact absurd hany h

/-- C9.  Marking any assignment used deletes every penalty row of the
acting member, whatever its prior counter value, so the member ends
with no penalty record at all, and repeating the action leaves the
whole state unchanged (the mark is idempotent). -/
theorem claim_C9_theorem : ∀ (s : State) (aid actor : Nat), actor ∈ userIds s →
    penaltiesOf (markUsed aid actor s) actor = [] ∧
    markUsed aid actor (markUsed aid actor s) = markUsed aid actor s := by
  intro s aid actor hmem
  have hany := userIds_any s actor hmem
  rw [markUsed_eq_of_any aid actor s hany]
  constructor
  · exact filter_filter_key_self (fun p => p.user) actor s.penalties
  · have hanyX : (({ s with
        assignments := s.assignments.map (fun (a : Assign) =>
          if a.id == aid then { a with used := true } else a),
        penalties := s.penalties.filter (fun p => !(p.user == actor)) } : State).users.any
          (fun u => u.id == actor)) = true := hany
    rw [markUsed_eq_of_any aid actor _ hanyX]
    have hmm1 : ((s.assignments.map (fun (a : Assign) =>
        if a.id == aid then { a with used := true } else a)).map (fun (a : Assign) =>
        if a.id == aid then { a with used := true } else a)) =
        s.assignments.map (fun (a : Assign) =>
          if a.id == aid then { a with used := true } else a) := by
      rw [List.map_map]
      refine List.map_congr_left (fun a _ => ?_)
      show (if (if a.id == aid then ({ a with used := true } : Assign) else a).id == aid then
        { (if a.id == aid then ({ a with used := true } : Assign) else a) with used := true }
        else (if a.id == aid then ({ a with used := true } : Assign) else a)) =
        (if a.id == aid then ({ a with used := true } : Assign) else a)
      by_cases h : (a.id == aid) = true <;> simp [h]
    have hmm2 : ((s.penalties.filter (fun p => !(p.user == actor))).filter
        (fun p => !(p.user == actor))) = s.penalties.filter (fun p => !(p.user == actor)) := by
      rw [List.filter_filter]
      refine List.filter_congr (fun p _ => ?_)
      exact Bool.and_self _
    show ({ s with
      assignments := ((s.assignments.map (fun (a : Assign) =>
        if a.id == aid then { a with used := true } else a)).map (fun (a : Assign) =>
        if a.id == aid then { a with used := true } else a)),
      penalties := ((s.penalties.filter (fun p => !(p.user == actor))).filter
        (fun p => !(p.user == actor))) } : State) =
      { s with
        assignments := s.assignments.map (fun (a : Assign) =>
          if a.id == aid then { a with used := true } else a),
        penalties := s.penalties.filter (fun p => !(p.user == actor)) }
    rw [hmm1, hmm2]

/-- C9 (witness).  The theorem applied at the concrete state reactDemo,
where member 1 carries a penalty row with counter 2: one mark-used
action leaves no penalty record and repeating it changes nothing. -/
theorem claim_C9_witness :
    penaltiesOf (markUsed 1 1 reactDemo) 1 = [] ∧
      markUsed 1 1 (markUsed 1 1 reactDemo) = markUsed 1 1 reactDemo :=
  claim_C9_theorem reactDemo 1 1 (by decide)

/-- C10.  Marking an assignment used deletes the acting member's
penalty record together with its codes-suspended flag, and the
time-based reactivation pass never selects a member who has no penalty
record: such a member's codes are left exactly as they are (so codes
suspended at streak 2 stay suspended forever unless some other path
changes them). -/
theorem claim_C10_theorem : ∀ (s : State) (aid m : Nat), m ∈ userIds s →
    penaltiesOf (markUsed aid m s) m = [] ∧
    ∀ (s' : State) (today : Nat), penaltiesOf s' m = [] →
      codesOf (reactivateSuspendedCodes today s') m = codesOf s' m := by
  intro s aid m hmem
  constructor
  · rw [markUsed_eq_of_any aid m s (userIds_any s m hmem)]
    exact filter_filter_key_self (fun p => p.user) m s.penalties
  · intro s' today hnone
    unfold reactivateSuspendedCodes
    have hfold : ∀ (sel : List Nat) (st : State), (∀ u ∈ sel, ¬ u = m) →
        codesOf (sel.foldl (fun st uid =>
          { st with
            codes := st.codes.map (fun c =>
              if c.owner == uid && c.status == CStatus.suspended then
                { c with status := CStatus.active } else c),
            penalties := st.penalties.filter (fun p => !(p.user == uid)) }) st) m =
          codesOf st m := by
      intro sel
      induction sel with
      | nil => intro st _; rfl
      | cons u sel ih =>
          intro st hns
          rw [List.foldl_cons, ih _ (fun x hx => hns x (List.mem_cons_of_mem _ hx))]
          show ((st.codes.map (fun c =>
            if c.owner == u && c.status == CStatus.suspended then
              { c with status := CStatus.active } else c)).filter (fun c => c.owner == m)) =
            st.codes.filter (fun c => c.owner == m)
          refine filter_map_fix _ _ ?_ ?_ st.codes
          · intro c
            by_cases h : (c.owner == u && c.status == CStatus.suspended) = true <;> simp [h]
          · intro c hc
            have hcm : c.owner = m := beq_iff_eq.mp hc
            have hne : (c.owner == u) = false := by
              simp [beq_iff_eq, hcm]
              exact fun he => hns u (List.mem_cons_self _ _) he.symm
            simp [hne]
    refine hfold _ s' (fun u hu he => ?_)
    subst he
    rcases List.mem_map.mp hu with ⟨q, hq, hqu⟩
    have hq2 : q ∈ penaltiesOf s' u := by
      refine List.mem_filter.mpr ⟨List.mem_of_mem_filter hq, ?_⟩
      simp [beq_iff_eq, hqu]
    rw [hnone] at hq2
    cases hq2

/-- C10 (witness).  The theorem applied at reactDemo: after member 1
marks an assignment used, they hold no penalty record, and a
reactivation pass over a state in which member 1 has no penalty record
leaves member 1's codes untouched. -/
theorem claim_C10_witness :
    penaltiesOf (markUsed 1 1 reactDemo) 1 = [] ∧
      codesOf (reactivateSuspendedCodes 10 (markUsed 1 1 reactDemo)) 1 =
        codesOf (markUsed 1 1 reactDemo) 1 :=
  ⟨(claim_C10_theorem reactDemo 1 1 (by decide)).1,
   (claim_C10_theorem reactDemo 1 1 (by decide)).2 (markUsed 1 1 reactDemo) 10
     (claim_C10_theorem reactDemo 1 1 (by decide)).1⟩

/-- C5.  For every member whose penalty record carries the
codes-suspended flag and whose penalty date is at least two days old,
the daily reactivation pass sets every one of that member's suspended
codes back to active, independent of the value of the miss counter. -/
theorem claim_C5_theorem : ∀ (s : State) (today v : Nat) (p : Penalty), p ∈ s.penalties →
    p.user = v → p.codesDeleted = true → p.penaltyDate + 2 ≤ today →
    ∀ c ∈ s.codes, c.owner = v → c.status = CStatus.suspended →
      { c with status := CStatus.active } ∈ (reactivateSuspendedCodes today s).codes := by
  intro s today v p hp hpu hpf hpd c hc hco hcs
  unfold reactivateSuspendedCodes
  have hv : v ∈ (s.penalties.filter
      (fun p => p.codesDeleted && p.penaltyDate + 2 ≤ today)).map (fun p => p.user) := by
    refine List.mem_map.mpr ⟨p, List.mem_filter.mpr ⟨hp, ?_⟩, hpu⟩
    simp [hpf]
    exact hpd
  have hfold : ∀ (sel : List Nat) (st : State),
      ((v ∈ sel ∧ c ∈ st.codes) ∨ ({ c with status := CStatus.active } ∈ st.codes)) →
      { c with status := CStatus.active } ∈ (sel.foldl (fun st uid =>
        { st with
          codes := st.codes.map (fun c =>
            if c.owner == uid && c.status == CStatus.suspended then
              { c with status := CStatus.active } else c),
          penalties := st.penalties.filter (fun p => !(p.user == uid)) }) st).codes := by
    intro sel
    induction sel with
    | nil =>
        intro st h
        rcases h with ⟨hvin, _⟩ | hgoal
        · cases hvin
        · exact hgoal
    | cons u sel ih =>
        intro st h
        rw [List.foldl_cons]
        refine ih _ ?_
        rcases h with ⟨hvin, hcin⟩ | hgoal
        · by_cases hu : u = v
          · subst hu
            refine Or.inr ?_
            have : (fun c => if c.owner == u && c.status == CStatus.suspended then
                { c with status := CStatus.active } else c) c =
                { c with status := CStatus.active } := by
              have hcond : (c.owner == u && c.status == CStatus.suspended) = true := by
                simp [beq_iff_eq, hco, hcs]
              simp only [hcond, if_true]
            exact this ▸ List.mem_map_of_mem _ hcin
          · refine Or.inl ⟨?_, ?_⟩
            · rcases List.mem_cons.mp hvin with he | ht
              · exact absurd he.symm hu
              · exact ht
            · have hfix : (fun c => if c.owner == u && c.status == CStatus.suspended then
                  { c with status := CStatus.active } else c) c = c := by
                have hcond : (c.owner == u && c.status == CStatus.suspended) = false := by
                  have : (c.owner == u) = false := by
                    simp [beq_iff_eq, hco]
                    exact fun he => hu he.symm
                  simp [this]
                simp only [hcond]
                rfl
              exact hfix ▸ List.mem_map_of_mem _ hcin
        · refine Or.inr ?_
          have hfix : (fun x => if x.owner == u && x.status == CStatus.suspended then
              { x with status := CStatus.active } else x) { c with status := CStatus.active } =
              { c with status := CStatus.active } := by
            have hcond : (({ c with status := CStatus.active } : Code).owner == u &&
                ({ c with status := CStatus.active } : Code).status == CStatus.suspended)
                = false := by
              simp
            simp only [hcond]
            rfl
          exact hfix ▸ List.mem_map_of_mem _ hgoal
  exact hfold _ s (Or.inl ⟨hv, hc⟩)

/-- C5 (witness).  The theorem applied at reactDemo: member 1's flagged
penalty dates from day 5, so the reactivation pass of day 10 turns
member 1's suspended code 1 back to active. -/
theorem claim_C5_witness :
    (⟨1, 1, 1, CStatus.active, 50⟩ : Code) ∈ (reactivateSuspendedCodes 10 reactDemo).codes :=
  claim_C5_theorem reactDemo 10 1 ⟨1, 2, 5, true⟩ (by decide) rfl rfl (by decide)
    ⟨1, 1, 1, CStatus.suspended, 50⟩ (by decide) rfl rfl

theorem filter_filter_nil {α : Type} (p q : α → Bool) (l : List α) (h : l.filter p = []) :
    (l.filter q).filter p = [] := by
  refine List.filter_eq_nil.mpr (fun x hx => ?_)
  exact List.filter_eq_nil.mp h x (List.mem_of_mem_filter hx)

theorem not_mem_map_key_filter {α : Type} (key : α → Nat) (v : Nat) (l : List α) :
    v ∉ (l.filter (fun x => !(key x == v))).map key := by
  intro h
  rcases List.mem_map.mp h with ⟨x, hx, hk⟩
  have h2 := List.of_mem_filter hx
  simp [hk] at h2

theorem users_moveIfFree (t y u : Nat) (st : State) : (moveIfFree t y u st).users = st.users := by
  unfold moveIfFree
  split <;> rfl

theorem codes_moveIfFree (t y u : Nat) (st : State) : (moveIfFree t y u st).codes = st.codes := by
  unfold moveIfFree
  split <;> rfl

theorem penalties_moveIfFree (t y u : Nat) (st : State) :
    (moveIfFree t y u st).penalties = st.penalties := by
  unfold moveIfFree
  split <;> rfl

theorem viewerAssignsOf_moveIfFree_ne (t y u v : Nat) (st : State) (hne : v ≠ u) :
    viewerAssignsOf (moveIfFree t y u st) v = viewerAssignsOf st v := by
  unfold moveIfFree viewerAssignsOf
  split
  · rfl
  · refine filter_map_fix _ _ (fun b => ?_) (fun b hb => ?_) st.assignments
    · by_cases h : (b.viewer == u && b.date == y && !b.used) = true <;> simp [h]
    · have hbv : b.viewer = v := beq_iff_eq.mp hb
      have hfalse : (b.viewer == u) = false := by
        simp [beq_iff_eq, hbv]
        exact hne
      simp [hfalse]

theorem users_bumpPenalty (t u : Nat) (st : State) : (bumpPenalty t u st).users = st.users := by
  rcases h : st.penalties.find? (fun p => p.user == u) with _ | p
  · simp only [bumpPenalty, h]
  · simp only [bumpPenalty, suspendCodesOf, h]
    split <;> rfl

theorem assigns_bumpPenalty (t u : Nat) (st : State) :
    (bumpPenalty t u st).assignments = st.assignments := by
  rcases h : st.penalties.find? (fun p => p.user == u) with _ | p
  · simp only [bumpPenalty, h]
  · simp only [bumpPenalty, suspendCodesOf, h]
    split <;> rfl

theorem penaltiesOf_bumpPenalty_ne (t u v : Nat) (st : State) (hne : v ≠ u) :
    penaltiesOf (bumpPenalty t u st) v = penaltiesOf st v := by
  rcases h : st.penalties.find? (fun p => p.user == u) with _ | p
  · simp only [bumpPenalty, penaltiesOf, h]
    refine filter_append_singleton_false _ _ ?_ st.penalties
    simp [beq_iff_eq]
    exact fun he => hne he.symm
  · simp only [bumpPenalty, suspendCodesOf, penaltiesOf, h]
    have hfixf : ∀ q : Penalty, (q.user == v) = true →
        (if q.user == u then
          ({ q with missedDays := p.missedDays + 1, penaltyDate := t } : Penalty) else q) = q := by
      intro q hq
      have h1 : q.user = v := beq_iff_eq.mp hq
      have h2 : (q.user == u) = false := by
        simp [beq_iff_eq, h1]
        exact hne
      simp [h2]
    have hpf : ∀ q : Penalty, ((if q.user == u then
        ({ q with missedDays := p.missedDays + 1, penaltyDate := t } : Penalty) else q).user == v)
        = (q.user == v) := by
      intro q
      by_cases h1 : (q.user == u) = true <;> simp [h1]
    have hfixg : ∀ q : Penalty, (q.user == v) = true →
        (if q.user == u then ({ q with codesDeleted := true } : Penalty) else q) = q := by
      intro q hq
      have h1 : q.user = v := beq_iff_eq.mp hq
      have h2 : (q.user == u) = false := by
        simp [beq_iff_eq, h1]
        exact hne
      simp [h2]
    have hpg : ∀ q : Penalty, ((if q.user == u then
        ({ q with codesDeleted := true } : Penalty) else q).user == v) = (q.user == v) := by
      intro q
      by_cases h1 : (q.user == u) = true <;> simp [h1]
    split
    · rw [filter_map_fix _ _ hpg hfixg, filter_map_fix _ _ hpf hfixf]
    · rw [filter_map_fix _ _ hpf hfixf]

theorem codesOf_bumpPenalty_ne (t u v : Nat) (st : State) (hne : v ≠ u) :
    codesOf (bumpPenalty t u st) v = codesOf st v := by
  rcases h : st.penalties.find? (fun p => p.user == u) with _ | p
  · simp only [bumpPenalty, codesOf, h]
  · simp only [bumpPenalty, suspendCodesOf, codesOf, h]
    split
    · refine filter_map_fix _ _ (fun c => ?_) (fun c hc => ?_) st.codes
      · by_cases h1 : (c.owner == u && c.status == CStatus.active) = true <;> simp [h1]
      · have h1 : c.owner = v := beq_iff_eq.mp hc
        have h2 : (c.owner == u) = false := by
          simp [beq_iff_eq, h1]
          exact hne
        simp [h2]
    · rfl

theorem mem_codes_bumpPenalty (t u : Nat) (st : State) (c : Code) (hc : c ∈ st.codes)
    (hne : ¬ c.owner = u) : c ∈ (bumpPenalty t u st).codes := by
  rcases h : st.penalties.find? (fun p => p.user == u) with _ | p
  · simp only [bumpPenalty, h]
    exact hc
  · simp only [bumpPenalty, suspendCodesOf, h]
    split
    · refine mem_map_self hc ?_
      have h2 : (c.owner == u) = false := by
        simp [beq_iff_eq]
        exact hne
      simp [h2]
    · exact hc

theorem penaltiesOf_purgeUser_ne (w v : Nat) (st : State) (hne : v ≠ w) :
    penaltiesOf (purgeUser w st) v = penaltiesOf st v :=
  filter_filter_key_ne (fun p : Penalty => p.user) v w hne st.penalties

theorem codesOf_purgeUser_ne (w v : Nat) (st : State) (hne : v ≠ w) :
    codesOf (purgeUser w st) v = codesOf st v :=
  filter_filter_key_ne (fun c : Code => c.owner) v w hne st.codes

theorem viewerAssignsOf_purgeUser_ne (w v : Nat) (st : State) (hne : v ≠ w) :
    viewerAssignsOf (purgeUser w st) v = viewerAssignsOf st v :=
  filter_filter_key_ne (fun a : Assign => a.viewer) v w hne st.assignments

theorem purged_purgeUser_self (v : Nat) (st : State) : Purged v (purgeUser v st) :=
  ⟨not_mem_map_key_filter (fun u : User => u.id) v st.users,
   filter_filter_key_self (fun c : Code => c.owner) v st.codes,
   filter_filter_key_self (fun a : Assign => a.viewer) v st.assignments,
   filter_filter_key_self (fun p : Penalty => p.user) v st.penalties⟩

theorem purged_mono_purgeUser (v w : Nat) (st : State) (h : Purged v st) :
    Purged v (purgeUser w st) := by
  obtain ⟨h1, h2, h3, h4⟩ := h
  refine ⟨?_, ?_, ?_, ?_⟩
  · intro hmem
    rcases List.mem_map.mp hmem with ⟨x, hx, hid⟩
    exact h1 (List.mem_map.mpr ⟨x, List.mem_of_mem_filter hx, hid⟩)
  · exact filter_filter_nil _ _ st.codes h2
  · exact filter_filter_nil _ _ st.assignments h3
  · exact filter_filter_nil _ _ st.penalties h4

theorem purgeFold_frame (v : Nat) (prs : List (Nat × Nat)) :
    ∀ st : State, (∀ pr ∈ prs, pr.1 = v → pr.2 + 1 < 3) →
      penaltiesOf (prs.foldl (fun st (pr : Nat × Nat) =>
          if 3 ≤ pr.2 + 1 then purgeUser pr.1 st else st) st) v = penaltiesOf st v ∧
      codesOf (prs.foldl (fun st (pr : Nat × Nat) =>
          if 3 ≤ pr.2 + 1 then purgeUser pr.1 st else st) st) v = codesOf st v ∧
      viewerAssignsOf (prs.foldl (fun st (pr : Nat × Nat) =>
          if 3 ≤ pr.2 + 1 then purgeUser pr.1 st else st) st) v = viewerAssignsOf st v := by
  induction prs with
  | nil => exact fun st _ => ⟨rfl, rfl, rfl⟩
  | cons pr rest ih =>
      intro st hpr
      rw [List.foldl_cons]
      by_cases h3 : 3 ≤ pr.2 + 1
      · rw [if_pos h3]
        have hvw : v ≠ pr.1 := by
          intro he
          have := hpr pr (List.mem_cons_self _ _) he.symm
          omega
        obtain ⟨i1, i2, i3⟩ := ih (purgeUser pr.1 st)
          (fun q hq => hpr q (List.mem_cons_of_mem _ hq))
        exact ⟨i1.trans (penaltiesOf_purgeUser_ne pr.1 v st hvw),
          i2.trans (codesOf_purgeUser_ne pr.1 v st hvw),
          i3.trans (viewerAssignsOf_purgeUser_ne pr.1 v st hvw)⟩
      · rw [if_neg h3]
        exact ih st (fun q hq => hpr q (List.mem_cons_of_mem _ hq))

theorem purgeFold_purged (v : Nat) (prs : List (Nat × Nat)) :
    ∀ st : State, ((∃ pr ∈ prs, pr.1 = v ∧ 3 ≤ pr.2 + 1) ∨ Purged v st) →
      Purged v (prs.foldl (fun st (pr : Nat × Nat) =>
        if 3 ≤ pr.2 + 1 then purgeUser pr.1 st else st) st) := by
  induction prs with
  | nil =>
      intro st h
      rcases h with ⟨pr, hpr, _⟩ | hp
      · cases hpr
      · exact hp
  | cons q rest ih =>
      intro st h
      rw [List.foldl_cons]
      rcases h with ⟨pr, hpr, hv3⟩ | hp
      · rcases List.mem_cons.mp hpr with he | ht
        · subst he
          rw [if_pos hv3.2]
          refine ih _ (Or.inr ?_)
          rw [hv3.1]
          exact purged_purgeUser_self v st
        · exact ih _ (Or.inl ⟨pr, ht, hv3⟩)
      · refine ih _ (Or.inr ?_)
        by_cases h3 : 3 ≤ q.2 + 1
        · rw [if_pos h3]
          exact purged_mono_purgeUser v q.1 st hp
        · rw [if_neg h3]
          exact hp

theorem storedMissed_of_none (s : State) (v : Nat) (h : penaltiesOf s v = []) :
    storedMissed s v = 0 := by
  unfold storedMissed
  rw [find?_eq_head?_filter]
  unfold penaltiesOf at h
  rw [h]
  rfl

theorem storedMissed_of_some (s : State) (v : Nat) (p : Penalty) (h : penaltiesOf s v = [p]) :
    storedMissed s v = p.missedDays := by
  unfold storedMissed
  rw [find?_eq_head?_filter]
  unfold penaltiesOf at h
  rw [h]
  rfl

theorem mem_missedUsersList (s : State) (ys v : Nat) (hv : v ∈ userIds s)
    (a : Assign) (ha : a ∈ s.assignments) (hav : a.viewer = v) (had : a.date = ys)
    (hau : a.used = false) : v ∈ missedUsersList s ys := by
  rcases List.mem_map.mp hv with ⟨x, hx, hid⟩
  refine List.mem_map.mpr ⟨x, List.mem_filter.mpr ⟨hx, ?_⟩, hid⟩
  refine List.any_eq_true.mpr ⟨a, ha, ?_⟩
  simp [hav, had, hau, hid]

theorem bump_self_none (t v : Nat) (st : State) (h : penaltiesOf st v = []) :
    penaltiesOf (bumpPenalty t v st) v = [⟨v, 1, t, false⟩] := by
  unfold penaltiesOf at h
  have hf : st.penalties.find? (fun p => p.user == v) = none := by
    rw [find?_eq_head?_filter, h]
    rfl
  simp only [bumpPenalty, penaltiesOf, hf]
  rw [List.filter_append, h]
  simp

theorem bump_self_some (t v : Nat) (st : State) (p : Penalty) (h : penaltiesOf st v = [p]) :
    penaltiesOf (bumpPenalty t v st) v =
      [⟨v, p.missedDays + 1, t, if 2 ≤ p.missedDays + 1 then true else p.codesDeleted⟩] := by
  unfold penaltiesOf at h
  have hf : st.penalties.find? (fun p => p.user == v) = some p := by
    rw [find?_eq_head?_filter, h]
    rfl
  have hpu : p.user = v := by
    have hp2 : p ∈ st.penalties.filter (fun q => q.user == v) := by
      rw [h]
      exact List.mem_cons_self _ _
    have hb := List.of_mem_filter hp2
    exact beq_iff_eq.mp hb
  simp only [bumpPenalty, suspendCodesOf, penaltiesOf, hf]
  have hpf : ∀ q : Penalty, ((if q.user == v then
      ({ q with missedDays := p.missedDays + 1, penaltyDate := t } : Penalty) else q).user == v)
      = (q.user == v) := by
    intro q
    by_cases h1 : (q.user == v) = true <;> simp [h1]
  have hpg : ∀ q : Penalty, ((if q.user == v then
      ({ q with codesDeleted := true } : Penalty) else q).user == v) = (q.user == v) := by
    intro q
    by_cases h1 : (q.user == v) = true <;> simp [h1]
  split
  · rename_i h2
    rw [filter_map_comm _ _ hpg, filter_map_comm _ _ hpf, h]
    simp [hpu, h2]
  · rename_i h2
    rw [filter_map_comm _ _ hpf, h]
    simp [hpu, h2]

theorem bump_self_suspends (t v : Nat) (st : State) (p : Penalty) (h : penaltiesOf st v = [p])
    (h2 : 2 ≤ p.missedDays + 1) (c : Code) (hc : c ∈ st.codes) (hco : c.owner = v)
    (hcs : c.status = CStatus.active) :
    ({ c with status := CStatus.suspended } : Code) ∈ (bumpPenalty t v st).codes := by
  unfold penaltiesOf at h
  have hf : st.penalties.find? (fun p => p.user == v) = some p := by
    rw [find?_eq_head?_filter, h]
    rfl
  simp only [bumpPenalty, suspendCodesOf, hf]
  rw [if_pos h2]
  dsimp only
  have hfc : (fun c : Code => if c.owner == v && c.status == CStatus.active then
      ({ c with status := CStatus.suspended } : Code) else c) c
      = { c with status := CStatus.suspended } := by
    simp [hco, hcs]
  exact hfc ▸ List.mem_map_of_mem _ hc

theorem huStep_pen_ne (t y u v : Nat) (st : State) (hne : v ≠ u) :
    penaltiesOf (bumpPenalty t u (moveIfFree t y u st)) v = penaltiesOf st v := by
  rw [penaltiesOf_bumpPenalty_ne t u v _ hne]
  unfold penaltiesOf
  rw [penalties_moveIfFree]

theorem huStep_codes_ne (t y u v : Nat) (st : State) (hne : v ≠ u) :
    codesOf (bumpPenalty t u (moveIfFree t y u st)) v = codesOf st v := by
  rw [codesOf_bumpPenalty_ne t u v _ hne]
  unfold codesOf
  rw [codes_moveIfFree]

theorem huStep_mem_codes (t y u : Nat) (st : State) (c : Code) (hc : c ∈ st.codes)
    (hne : ¬ c.owner = u) : c ∈ (bumpPenalty t u (moveIfFree t y u st)).codes := by
  refine mem_codes_bumpPenalty t u _ c ?_ hne
  rw [codes_moveIfFree]
  exact hc

theorem huFold_pen_frame (t y v : Nat) (us : List Nat) :
    ∀ st : State, (∀ u ∈ us, ¬ v = u) →
      penaltiesOf (us.foldl (fun st uid =>
        bumpPenalty t uid (moveIfFree t y uid st)) st) v = penaltiesOf st v := by
  induction us with
  | nil => exact fun st _ => rfl
  | cons u rest ih =>
      intro st h
      rw [List.foldl_cons, ih _ (fun w hw => h w (List.mem_cons_of_mem _ hw))]
      exact huStep_pen_ne t y u v st (h u (List.mem_cons_self _ _))

theorem huFold_mem_codes (t y : Nat) (c : Code) (us : List Nat) :
    ∀ st : State, (∀ u ∈ us, ¬ c.owner = u) → c ∈ st.codes →
      c ∈ (us.foldl (fun st uid => bumpPenalty t uid (moveIfFree t y uid st)) st).codes := by
  induction us with
  | nil => exact fun st _ hc => hc
  | cons u rest ih =>
      intro st h hc
      rw [List.foldl_cons]
      exact ih _ (fun w hw => h w (List.mem_cons_of_mem _ hw))
        (huStep_mem_codes t y u st c hc (h u (List.mem_cons_self _ _)))

theorem huFold_pen (t y v : Nat) (us : List Nat) :
    ∀ st : State, us.Nodup → v ∈ us →
      (penaltiesOf st v = [] →
        penaltiesOf (us.foldl (fun st uid =>
          bumpPenalty t uid (moveIfFree t y uid st)) st) v = [⟨v, 1, t, false⟩]) ∧
      (∀ p : Penalty, penaltiesOf st v = [p] →
        penaltiesOf (us.foldl (fun st uid =>
          bumpPenalty t uid (moveIfFree t y uid st)) st) v =
          [⟨v, p.missedDays + 1, t,
            if 2 ≤ p.missedDays + 1 then true else p.codesDeleted⟩]) := by
  induction us with
  | nil =>
      intro st _ hv
      cases hv
  | cons u rest ih =>
      intro st hnd hv
      rw [List.foldl_cons]
      by_cases he : u = v
      · subst he
        have hvrest : ∀ w ∈ rest, ¬ u = w := by
          intro w hw hwe
          exact (List.nodup_cons.mp hnd).1 (hwe ▸ hw)
        constructor
        · intro h0
          rw [huFold_pen_frame t y u rest _ hvrest]
          refine bump_self_none t u _ ?_
          unfold penaltiesOf
          rw [penalties_moveIfFree]
          exact h0
        · intro p hp
          rw [huFold_pen_frame t y u rest _ hvrest]
          refine bump_self_some t u _ p ?_
          unfold penaltiesOf
          rw [penalties_moveIfFree]
          exact hp
      · have hvrest : v ∈ rest := by
          rcases List.mem_cons.mp hv with h1 | h1
          · exact absurd h1.symm he
          · exact h1
        have hne : v ≠ u := fun h1 => he h1.symm
        obtain ⟨ihA, ihB⟩ := ih (bumpPenalty t u (moveIfFree t y u st))
          (List.nodup_cons.mp hnd).2 hvrest
        constructor
        · intro h0
          refine ihA ?_
          rw [huStep_pen_ne t y u v st hne]
          exact h0
        · intro p hp
          refine ihB p ?_
          rw [huStep_pen_ne t y u v st hne]
          exact hp

theorem huFold_code (t y v : Nat) (p : Penalty) (h2 : 2 ≤ p.missedDays + 1) (c : Code)
    (hco : c.owner = v) (hcs : c.status = CStatus.active) (us : List Nat) :
    ∀ st : State, us.Nodup → v ∈ us → penaltiesOf st v = [p] → c ∈ st.codes →
      ({ c with status := CStatus.suspended } : Code) ∈
        (us.foldl (fun st uid => bumpPenalty t uid (moveIfFree t y uid st)) st).codes := by
  induction us with
  | nil =>
      intro st _ hv
      cases hv
  | cons u rest ih =>
      intro st hnd hv hp hc
      rw [List.foldl_cons]
      by_cases he : u = v
      · subst he
        have hvrest : ∀ w ∈ rest,
            ¬ ({ c with status := CStatus.suspended } : Code).owner = w := by
          intro w hw hwe
          have hcw : c.owner = w := hwe
          exact (List.nodup_cons.mp hnd).1 ((hcw.symm.trans hco) ▸ hw)
        refine huFold_mem_codes t y _ rest _ hvrest ?_
        refine bump_self_suspends t u _ p ?_ h2 c ?_ hco hcs
        · unfold penaltiesOf
          rw [penalties_moveIfFree]
          exact hp
        · rw [codes_moveIfFree]
          exact hc
      · have hvrest : v ∈ rest := by
          rcases List.mem_cons.mp hv with h1 | h1
          · exact absurd h1.symm he
          · exact h1
        have hne : v ≠ u := fun h1 => he h1.symm
        refine ih _ (List.nodup_cons.mp hnd).2 hvrest ?_ ?_
        · rw [huStep_pen_ne t y u v st hne]
          exact hp
        · refine huStep_mem_codes t y u st c hc ?_
          rw [hco]
          exact hne

theorem reactFold_pen_frame (v : Nat) (sel : List Nat) :
    ∀ st : State, (∀ u ∈ sel, ¬ v = u) →
      penaltiesOf (sel.foldl (fun st uid =>
        { st with
          codes := st.codes.map (fun c =>
            if c.owner == uid && c.status == CStatus.suspended then
              { c with status := CStatus.active } else c),
          penalties := st.penalties.filter (fun p => !(p.user == uid)) }) st) v =
        penaltiesOf st v := by
  induction sel with
  | nil => exact fun st _ => rfl
  | cons u rest ih =>
      intro st h
      rw [List.foldl_cons, ih _ (fun w hw => h w (List.mem_cons_of_mem _ hw))]
      exact filter_filter_key_ne (fun p : Penalty => p.user) v u
        (h u (List.mem_cons_self _ _)) st.penalties

theorem reactFold_mem_codes (c : Code) (sel : List Nat) :
    ∀ st : State, (∀ u ∈ sel, ¬ c.owner = u) → c ∈ st.codes →
      c ∈ (sel.foldl (fun st uid =>
        { st with
          codes := st.codes.map (fun c =>
            if c.owner == uid && c.status == CStatus.suspended then
              { c with status := CStatus.active } else c),
          penalties := st.penalties.filter (fun p => !(p.user == uid)) }) st).codes := by
  induction sel with
  | nil => exact fun st _ hc => hc
  | cons u rest ih =>
      intro st h hc
      rw [List.foldl_cons]
      refine ih _ (fun w hw => h w (List.mem_cons_of_mem _ hw)) ?_
      refine mem_map_self hc ?_
      have h2 : (c.owner == u) = false := by
        simp [beq_iff_eq]
        exact h u (List.mem_cons_self _ _)
      simp [h2]

theorem reactFold_purged (v : Nat) (sel : List Nat) :
    ∀ st : State, Purged v st →
      Purged v (sel.foldl (fun st uid =>
        { st with
          codes := st.codes.map (fun c =>
            if c.owner == uid && c.status == CStatus.suspended then
              { c with status := CStatus.active } else c),
          penalties := st.penalties.filter (fun p => !(p.user == uid)) }) st) := by
  induction sel with
  | nil => exact fun st hp => hp
  | cons u rest ih =>
      intro st hp
      obtain ⟨h1, h2, h3, h4⟩ := hp
      rw [List.foldl_cons]
      refine ih _ ⟨h1, ?_, h3, ?_⟩
      · have hpres : ∀ c : Code, ((if c.owner == u && c.status == CStatus.suspended then
            ({ c with status := CStatus.active } : Code) else c).owner == v)
            = (c.owner == v) := by
          intro c
          by_cases h5 : (c.owner == u && c.status == CStatus.suspended) = true <;> simp [h5]
        unfold codesOf
        dsimp only
        rw [filter_map_comm _ _ hpres]
        unfold codesOf at h2
        rw [h2]
        rfl
      · unfold penaltiesOf
        dsimp only
        unfold penaltiesOf at h4
        exact filter_filter_nil _ _ st.penalties h4

theorem huFold_purged (t y v : Nat) (us : List Nat) :
    ∀ st : State, (∀ u ∈ us, ¬ u = v) → Purged v st →
      Purged v (us.foldl (fun st uid => bumpPenalty t uid (moveIfFree t y uid st)) st) := by
  induction us with
  | nil => exact fun st _ hp => hp
  | cons u rest ih =>
      intro st h hp
      rw [List.foldl_cons]
      refine ih _ (fun w hw => h w (List.mem_cons_of_mem _ hw)) ?_
      obtain ⟨h1, h2, h3, h4⟩ := hp
      have hne : v ≠ u := fun he => h u (List.mem_cons_self _ _) he.symm
      refine ⟨?_, ?_, ?_, ?_⟩
      · intro hmem
        apply h1
        unfold userIds at hmem ⊢
        rw [users_bumpPenalty, users_moveIfFree] at hmem
        exact hmem
      · rw [huStep_codes_ne t y u v st hne]
        exact h2
      · have e1 : viewerAssignsOf (bumpPenalty t u (moveIfFree t y u st)) v
            = viewerAssignsOf (moveIfFree t y u st) v := by
          unfold viewerAssignsOf
          rw [assigns_bumpPenalty]
        rw [e1, viewerAssignsOf_moveIfFree_ne t y u v st hne]
        exact h3
      · rw [huStep_pen_ne t y u v st hne]
        exact h4

/-- C3.  The daily penalty checkpoint, exercised through the whole
midnight job: a member holding an unused assignment dated yesterday
has their miss streak treated as follows.  With no prior penalty row a
row with counter 1 is created; with a prior row whose incremented
counter stays below 3 the counter is incremented by exactly one and,
when it reaches 2, the flag is raised and every active code of the
member is suspended; with a prior row whose incremented counter
reaches 3 the member is deleted together with their owned codes, their
viewer-side assignments and their penalty rows. -/
theorem claim_C3_theorem (s : State) (today v : Nat) (htoday : 1 ≤ today)
    (hv : v ∈ userIds s) (a : Assign) (ha : a ∈ s.assignments) (hav : a.viewer = v)
    (had : a.date = today - 1) (hau : a.used = false) :
    (penaltiesOf s v = [] →
      penaltiesOf (midnightJob today s) v = [⟨v, 1, today, false⟩]) ∧
    (∀ p : Penalty, penaltiesOf s v = [p] → p.missedDays + 1 < 3 →
      penaltiesOf (midnightJob today s) v =
        [⟨v, p.missedDays + 1, today,
          if 2 ≤ p.missedDays + 1 then true else p.codesDeleted⟩] ∧
      (2 ≤ p.missedDays + 1 → ∀ c ∈ s.codes, c.owner = v → c.status = CStatus.active →
        ({ c with status := CStatus.suspended } : Code) ∈ (midnightJob today s).codes)) ∧
    (∀ p : Penalty, penaltiesOf s v = [p] → 3 ≤ p.missedDays + 1 →
      Purged v (midnightJob today s)) := by
  have hmp : midnightPurge today s =
      ((missedUsersList s (today - 1)).map (fun u => (u, storedMissed s u))).foldl
        (fun st (pr : Nat × Nat) => if 3 ≤ pr.2 + 1 then purgeUser pr.1 st else st) s := rfl
  have hhu : ∀ x : State, handleUnusedCodes today x =
      (((x.assignments.filter (fun b => b.date == today - 1 && !b.used)).map
        (fun b => b.viewer)).dedup).foldl
        (fun st uid => bumpPenalty today uid (moveIfFree today (today - 1) uid st)) x :=
    fun _ => rfl
  have hre : ∀ x : State, reactivateSuspendedCodes today x =
      ((x.penalties.filter (fun p => p.codesDeleted && p.penaltyDate + 2 ≤ today)).map
        (fun p => p.user)).foldl
        (fun st uid =>
          { st with
            codes := st.codes.map (fun c =>
              if c.owner == uid && c.status == CStatus.suspended then
                { c with status := CStatus.active } else c),
            penalties := st.penalties.filter (fun p => !(p.user == uid)) }) x :=
    fun _ => rfl
  unfold midnightJob
  refine ⟨?_, ?_, ?_⟩
  · -- branch A: no prior penalty row
    intro h0
    have hsm := storedMissed_of_none s v h0
    have hms : ∀ pr ∈ (missedUsersList s (today - 1)).map (fun u => (u, storedMissed s u)),
        pr.1 = v → pr.2 + 1 < 3 := by
      intro pr hpr he
      rcases List.mem_map.mp hpr with ⟨u, _, hpe⟩
      subst hpe
      have hu2 : u = v := he
      subst hu2
      show storedMissed s u + 1 < 3
      omega
    obtain ⟨f1, f2, f3⟩ := purgeFold_frame v _ s hms
    rw [← hmp] at f1 f2 f3
    have hav1 : a ∈ viewerAssignsOf s v := List.mem_filter.mpr ⟨ha, by simp [hav]⟩
    have ha1 : a ∈ (midnightPurge today s).assignments := by
      have h5 : a ∈ viewerAssignsOf (midnightPurge today s) v := by
        rw [f3]
        exact hav1
      exact List.mem_of_mem_filter h5
    have hvus : v ∈ (((midnightPurge today s).assignments.filter
        (fun b => b.date == today - 1 && !b.used)).map (fun b => b.viewer)).dedup := by
      refine List.mem_dedup.mpr (List.mem_map.mpr ⟨a, List.mem_filter.mpr ⟨ha1, ?_⟩, hav⟩)
      simp [had, hau]
    have hnd := List.nodup_dedup (((midnightPurge today s).assignments.filter
        (fun b => b.date == today - 1 && !b.used)).map (fun b => b.viewer))
    have hpen1 : penaltiesOf (midnightPurge today s) v = [] := f1.trans h0
    have hrow := (huFold_pen today (today - 1) v _ (midnightPurge today s) hnd hvus).1 hpen1
    rw [← hhu (midnightPurge today s)] at hrow
    have hselne : ∀ u ∈ ((handleUnusedCodes today (midnightPurge today s)).penalties.filter
        (fun p => p.codesDeleted && p.penaltyDate + 2 ≤ today)).map (fun p => p.user),
        ¬ v = u := by
      intro u hu he
      subst he
      rcases List.mem_map.mp hu with ⟨q, hq, hqu⟩
      have hq2 : q ∈ penaltiesOf (handleUnusedCodes today (midnightPurge today s)) v :=
        List.mem_filter.mpr ⟨List.mem_of_mem_filter hq, by simp [beq_iff_eq, hqu]⟩
      rw [hrow] at hq2
      have hq3 : q = ⟨v, 1, today, false⟩ := by simpa using hq2
      have hcond := List.of_mem_filter hq
      rw [hq3] at hcond
      simp at hcond
    have hfin := reactFold_pen_frame v _
      (handleUnusedCodes today (midnightPurge today s)) hselne
    rw [← hre (handleUnusedCodes today (midnightPurge today s))] at hfin
    rw [hfin, hrow]
  · -- branch B: prior row, incremented counter below 3
    intro p hp hlt
    have hsm := storedMissed_of_some s v p hp
    have hms : ∀ pr ∈ (missedUsersList s (today - 1)).map (fun u => (u, storedMissed s u)),
        pr.1 = v → pr.2 + 1 < 3 := by
      intro pr hpr he
      rcases List.mem_map.mp hpr with ⟨u, _, hpe⟩
      subst hpe
      have hu2 : u = v := he
      subst hu2
      show storedMissed s u + 1 < 3
      omega
    obtain ⟨f1, f2, f3⟩ := purgeFold_frame v _ s hms
    rw [← hmp] at f1 f2 f3
    have hav1 : a ∈ viewerAssignsOf s v := List.mem_filter.mpr ⟨ha, by simp [hav]⟩
    have ha1 : a ∈ (midnightPurge today s).assignments := by
      have h5 : a ∈ viewerAssignsOf (midnightPurge today s) v := by
        rw [f3]
        exact hav1
      exact List.mem_of_mem_filter h5
    have hvus : v ∈ (((midnightPurge today s).assignments.filter
        (fun b => b.date == today - 1 && !b.used)).map (fun b => b.viewer)).dedup := by
      refine List.mem_dedup.mpr (List.mem_map.mpr ⟨a, List.mem_filter.mpr ⟨ha1, ?_⟩, hav⟩)
      simp [had, hau]
    have hnd := List.nodup_dedup (((midnightPurge today s).assignments.filter
        (fun b => b.date == today - 1 && !b.used)).map (fun b => b.viewer))
    have hpen1 : penaltiesOf (midnightPurge today s) v = [p] := f1.trans hp
    have hrow := (huFold_pen today (today - 1) v _ (midnightPurge today s) hnd hvus).2 p hpen1
    rw [← hhu (midnightPurge today s)] at hrow
    have hselne : ∀ u ∈ ((handleUnusedCodes today (midnightPurge today s)).penalties.filter
        (fun p => p.codesDeleted && p.penaltyDate + 2 ≤ today)).map (fun p => p.user),
        ¬ v = u := by
      intro u hu he
      subst he
      rcases List.mem_map.mp hu with ⟨q, hq, hqu⟩
      have hq2 : q ∈ penaltiesOf (handleUnusedCodes today (midnightPurge today s)) v :=
        List.mem_filter.mpr ⟨List.mem_of_mem_filter hq, by simp [beq_iff_eq, hqu]⟩
      rw [hrow] at hq2
      have hq3 : q = ⟨v, p.missedDays + 1, today,
          if 2 ≤ p.missedDays + 1 then true else p.codesDeleted⟩ := by simpa using hq2
      have hcond := List.of_mem_filter hq
      rw [hq3] at hcond
      simp at hcond
    refine ⟨?_, ?_⟩
    · have hfin := reactFold_pen_frame v _
        (handleUnusedCodes today (midnightPurge today s)) hselne
      rw [← hre (handleUnusedCodes today (midnightPurge today s))] at hfin
      rw [hfin, hrow]
    · intro h2 c hc hco hcs
      have hcv : c ∈ codesOf s v := List.mem_filter.mpr ⟨hc, by simp [beq_iff_eq, hco]⟩
      have hcv1 : c ∈ codesOf (midnightPurge today s) v := by
        rw [f2]
        exact hcv
      have hc1 : c ∈ (midnightPurge today s).codes := List.mem_of_mem_filter hcv1
      have hsus := huFold_code today (today - 1) v p h2 c hco hcs _
        (midnightPurge today s) hnd hvus hpen1 hc1
      rw [← hhu (midnightPurge today s)] at hsus
      have hsusne : ∀ u ∈ ((handleUnusedCodes today (midnightPurge today s)).penalties.filter
          (fun p => p.codesDeleted && p.penaltyDate + 2 ≤ today)).map (fun p => p.user),
          ¬ ({ c with status := CStatus.suspended } : Code).owner = u := by
        intro u hu hwe
        have hcw : c.owner = u := hwe
        exact hselne u hu (hco.symm.trans hcw)
      have hmem := reactFold_mem_codes _ _
        (handleUnusedCodes today (midnightPurge today s)) hsusne hsus
      rw [← hre (handleUnusedCodes today (midnightPurge today s))] at hmem
      exact hmem
  · -- branch C: incremented counter reaches 3, full purge
    intro p hp h3
    have hsm := storedMissed_of_some s v p hp
    have hmm : v ∈ missedUsersList s (today - 1) :=
      mem_missedUsersList s (today - 1) v hv a ha hav had hau
    have hpair : ((v, storedMissed s v) : Nat × Nat) ∈
        (missedUsersList s (today - 1)).map (fun u => (u, storedMissed s u)) :=
      List.mem_map.mpr ⟨v, hmm, rfl⟩
    have hp1 : Purged v (midnightPurge today s) := by
      rw [hmp]
      refine purgeFold_purged v _ s (Or.inl ⟨(v, storedMissed s v), hpair, rfl, ?_⟩)
      show 3 ≤ storedMissed s v + 1
      omega
    have husne : ∀ u ∈ (((midnightPurge today s).assignments.filter
        (fun b => b.date == today - 1 && !b.used)).map (fun b => b.viewer)).dedup,
        ¬ u = v := by
      intro u hu he
      subst he
      have hu2 := List.mem_dedup.mp hu
      rcases List.mem_map.mp hu2 with ⟨b, hb, hbv⟩
      have hb1 : b ∈ viewerAssignsOf (midnightPurge today s) u :=
        List.mem_filter.mpr ⟨List.mem_of_mem_filter hb, by simp [beq_iff_eq, hbv]⟩
      rw [hp1.2.2.1] at hb1
      cases hb1
    have hp2 : Purged v (handleUnusedCodes today (midnightPurge today s)) := by
      rw [hhu (midnightPurge today s)]
      exact huFold_purged today (today - 1) v _ (midnightPurge today s) husne hp1
    rw [hre (handleUnusedCodes today (midnightPurge today s))]
    exact reactFold_purged v _ _ hp2

/-- C3 (witness).  The theorem applied at the concrete state penDemo:
member 1 holds the unused assignment dated day 9 and a penalty row
with counter 1, so the midnight job of day 10 raises the counter to 2,
sets its flag, and suspends member 1's active code 1. -/
theorem claim_C3_witness :
    penaltiesOf (midnightJob 10 penDemo) 1 = [⟨1, 2, 10, true⟩] ∧
      (⟨1, 1, 1, CStatus.suspended, 50⟩ : Code) ∈ (midnightJob 10 penDemo).codes := by
  have h := claim_C3_theorem penDemo 10 1 (by decide) (by decide) ⟨1, 2, 1, 9, false⟩
    (by decide) rfl rfl rfl
  have hB := h.2.1 ⟨1, 1, 5, false⟩ (by decide) (by decide)
  refine ⟨?_, hB.2 (by decide) ⟨1, 1, 1, CStatus.active, 50⟩ (by decide) rfl rfl⟩
  have hr := hB.1
  simpa using hr

end RedPacket
